import Mathlib

/-!
Verification of the Mole Raycast extension's core logic: the dry-run output
parsers, the streaming line reader, the size model, the engine-path
resolution, the buffered execution error policy, the ANSI stripper and the
purge-target directory walker.

Strings are modelled as `List Char`.  JavaScript regular expressions used by
the source are embedded through a small backtracking matcher (`Mole.mrun`)
whose candidate order reproduces the JS engine's leftmost search with greedy
and lazy quantifiers over character classes and literals (the only regex
features the source uses).  JavaScript numbers are modelled as `Option ℚ`
(`none` plays the role of `NaN`); multiplying or dividing by powers of 1024
is exact in IEEE doubles, so rationals are faithful for every property
stated here except the initial decimal-literal rounding, which none of the
claims depends on.
-/

namespace Mole

/-- JS whitespace for `\s` and `String.prototype.trim` (the code points the
repository's data can contain). -/
def isJsSpace (c : Char) : Bool :=
  c = ' ' || c = '\t' || c = '\n' || c = '\r' || c = '\x0b' || c = '\x0c' ||
  c = ' ' || c = '﻿'

/-- `\w` — ASCII word character. -/
def isWordChar (c : Char) : Bool :=
  c.isAlpha || c.isDigit || c = '_'

/-- `[\d.]` — digit or dot, the number class of the source's size regexes. -/
def isNumDot (c : Char) : Bool :=
  c.isDigit || c = '.'

/-- `[0-9;]` — CSI parameter characters of the ANSI regex. -/
def isCsiParam (c : Char) : Bool :=
  c.isDigit || c = ';'

/-- JS `.` — any character except line terminators. -/
def isDotChar (c : Char) : Bool :=
  !(c = '\n' || c = '\r' || c = ' ' || c = ' ')

/-- `String.prototype.trim`. -/
def jsTrim (s : List Char) : List Char :=
  ((s.dropWhile isJsSpace).reverse.dropWhile isJsSpace).reverse

/-- `String.prototype.split("\n")` — always returns at least one piece. -/
def splitNl : List Char → List (List Char)
  | [] => [[]]
  | c :: rest =>
    if c = '\n' then [] :: splitNl rest
    else
      match splitNl rest with
      | [] => [[c]]
      | l :: ls => (c :: l) :: ls

/-- Substring test used for `String.prototype.includes`. -/
def listIncludes (pat s : List Char) : Bool :=
  match s with
  | [] => pat.isPrefixOf ([] : List Char)
  | _ :: tail => pat.isPrefixOf s || listIncludes pat tail

-- --- A small backtracking regex matcher ---

/-- Quantifiers appearing in the source's regexes. -/
inductive Quant where
  | one        -- exactly one occurrence
  | starGreedy -- `*`
  | plusGreedy -- `+`
  | plusLazy   -- `+?`
  deriving Repr

/-- Regex abstract syntax: literals, quantified character classes, groups,
sequencing and the `$` anchor — the only features the source uses. -/
inductive RE where
  | lit (t : List Char)
  | cls (p : Char → Bool) (q : Quant)
  | grp (r : RE)
  | seq (a b : RE)
  | eos

/-- First success over a list of candidate repeat counts. -/
def firstSome (ns : List ℕ) (f : ℕ → Option α) : Option α :=
  match ns with
  | [] => none
  | n :: rest =>
    match f n with
    | some v => some v
    | none => firstSome rest f

/-- Candidate repeat counts for a quantified character class, in the order a
backtracking JS engine tries them (`maxRun` is the maximal run length of the
class at the current position; a character class never matches past it). -/
def quantCandidates (q : Quant) (maxRun : ℕ) : List ℕ :=
  match q with
  | .one => if maxRun = 0 then [] else [1]
  | .starGreedy => (List.range (maxRun + 1)).reverse
  | .plusGreedy => ((List.range maxRun).map (· + 1)).reverse
  | .plusLazy => (List.range maxRun).map (· + 1)

/-- Backtracking matcher in continuation style: `acc` accumulates capture
groups in order of appearance (the source's groups never nest). -/
def mrun (r : RE) (s : List Char) (acc : List (List Char))
    (k : List (List Char) → List Char → Option α) : Option α :=
  match r with
  | .lit t => if t.isPrefixOf s then k acc (s.drop t.length) else none
  | .cls p q =>
    firstSome (quantCandidates q (s.takeWhile p).length) fun n => k acc (s.drop n)
  | .grp r0 =>
    mrun r0 s acc fun acc' s' => k (acc' ++ [s.take (s.length - s'.length)]) s'
  | .seq a b =>
    mrun a s acc fun acc' s' => mrun b s' acc' k
  | .eos => if s.isEmpty then k acc s else none

/-- Match anchored at the start of `s`; returns the capture groups. -/
def reMatchAt (r : RE) (s : List Char) : Option (List (List Char)) :=
  mrun r s [] fun acc _ => some acc

/-- Unanchored search: try every start position left to right. -/
def reSearch (r : RE) : List Char → Option (List (List Char))
  | [] => reMatchAt r []
  | s@(_ :: tail) =>
    match reMatchAt r s with
    | some acc => some acc
    | none => reSearch r tail

/-- Chain of `RE.seq` applied right-associatively to a list of atoms. -/
def reSeq : List RE → RE
  | [] => .lit []
  | [r] => r
  | r :: rest => .seq r (reSeq rest)

end Mole

namespace Mole

-- --- Decimal rendering helpers (JS number printing and toFixed) ---

/-- Decimal digits of a natural number. -/
def natToChars (n : ℕ) : List Char :=
  (Nat.repr n).toList

/-- `Number.prototype.toFixed(d)`: round to `d` decimals picking the larger
candidate on ties, then print with exactly `d` fraction digits. -/
def toFixedQ (q : ℚ) (d : ℕ) : List Char :=
  let sign : List Char := if q < 0 then ['-'] else []
  let n : ℕ := (⌊|q| * (10 : ℚ) ^ d + 1 / 2⌋).toNat
  if d = 0 then sign ++ natToChars n
  else
    let frac := natToChars (n % 10 ^ d)
    sign ++ natToChars (n / 10 ^ d) ++ '.' :: (List.replicate (d - frac.length) '0' ++ frac)

/-- Least number of decimals that writes `q` exactly, if at most 30. -/
def decExp (q : ℚ) : Option ℕ :=
  (List.range 31).find? fun d => (q * (10 : ℚ) ^ d).den = 1

/-- Default JS number-to-string conversion (template interpolation) for the
finite-decimal values this code produces: shortest exact decimal expansion.
Values with no 30-digit decimal expansion are printed as a fraction; no
value reaching this function in the source does that, and no theorem below
looks at that branch. -/
def qRender (q : ℚ) : List Char :=
  let sign : List Char := if q < 0 then ['-'] else []
  match decExp |q| with
  | some 0 => sign ++ natToChars (|q|).num.toNat
  | some d =>
    let n := (|q| * (10 : ℚ) ^ d).num.toNat
    let frac := natToChars (n % 10 ^ d)
    sign ++ natToChars (n / 10 ^ d) ++ '.' :: (List.replicate (d - frac.length) '0' ++ frac)
  | none => sign ++ natToChars (|q|).num.toNat ++ '/' :: natToChars q.den

-- --- Size model ---

/-- `parseFloat` restricted to the digit-and-dot strings produced by the
capture group `([\d.]+)`: longest prefix of the form `digits[.digits]` or
`.digits`; `none` models `NaN`. -/
def parseFloatQ (l : List Char) : Option ℚ :=
  let ip := l.takeWhile Char.isDigit
  let rest := l.drop ip.length
  if ip.isEmpty then
    match rest with
    | '.' :: r2 =>
      let fp := r2.takeWhile Char.isDigit
      if fp.isEmpty then none
      else some ((Nat.ofDigits 10 ((fp.map fun c => c.toNat - '0'.toNat).reverse) : ℚ) / (10 : ℚ) ^ fp.length)
    | _ => none
  else
    let iv : ℚ := (Nat.ofDigits 10 ((ip.map fun c => c.toNat - '0'.toNat).reverse) : ℕ)
    match rest with
    | '.' :: r2 =>
      let fp := r2.takeWhile Char.isDigit
      some (iv + (Nat.ofDigits 10 ((fp.map fun c => c.toNat - '0'.toNat).reverse) : ℚ) / (10 : ℚ) ^ fp.length)
    | _ => some iv

/-- The regex `([\d.]+)\s*(\w+)` of `parseSizeToBytes` (unanchored). -/
def sizeRE : RE :=
  reSeq [.grp (.cls isNumDot .plusGreedy), .cls isJsSpace .starGreedy,
         .grp (.cls isWordChar .plusGreedy)]

/-- `toUpperCase` (ASCII, sufficient for the matched `\w+` units). -/
def toUpperList (l : List Char) : List Char :=
  l.map Char.toUpper

/-- The multiplier record of `parseSizeToBytes` in `clean.tsx`. -/
def multipliers (u : List Char) : Option ℚ :=
  if u = "B".toList then some 1
  else if u = "KB".toList then some 1024
  else if u = "MB".toList then some (1024 ^ 2)
  else if u = "GB".toList then some (1024 ^ 3)
  else if u = "TB".toList then some (1024 ^ 4)
  else none

/-- `parseSizeToBytes` from `clean.tsx` (`none` models `NaN`). -/
def parseSizeToBytes (sizeStr : List Char) : Option ℚ :=
  if sizeStr.isEmpty then some 0
  else
    match reSearch sizeRE sizeStr with
    | none => some 0
    | some groups =>
      match parseFloatQ (groups.getD 0 []) with
      | none => none
      | some v => some (v * (multipliers (toUpperList (groups.getD 1 []))).getD 1)

/-- `formatBytesShort` from `clean.tsx`. -/
def formatBytesShort (bytes : ℚ) : List Char :=
  if bytes ≥ 1024 ^ 3 then toFixedQ (bytes / 1024 ^ 3) 1 ++ " GB".toList
  else if bytes ≥ 1024 ^ 2 then toFixedQ (bytes / 1024 ^ 2) 1 ++ " MB".toList
  else if bytes ≥ 1024 then toFixedQ (bytes / 1024) 0 ++ " KB".toList
  else qRender bytes ++ " B".toList

/-- `SIZE_UNITS` from `utils.ts`. -/
def SIZE_UNITS : List (List Char) :=
  [r"B".toList, r"KB".toList, r"MB".toList, r"GB".toList, r"TB".toList]

/-- The `while (size >= BYTES_PER_KB && unitIndex < SIZE_UNITS.length - 1)`
loop of `formatBytes`; four iterations are the most it can run, so fuel 4
realizes it exactly. -/
def formatBytesLoop (size : ℚ) (unitIndex : ℕ) : ℕ → ℚ × ℕ
  | 0 => (size, unitIndex)
  | fuel + 1 =>
    if 1024 ≤ size ∧ unitIndex < 4 then formatBytesLoop (size / 1024) (unitIndex + 1) fuel
    else (size, unitIndex)

/-- `formatBytes` from `utils.ts`. -/
def formatBytes (bytes : ℚ) : List Char :=
  if bytes ≤ 0 then "0 B".toList
  else
    toFixedQ (formatBytesLoop bytes 0 4).1
        (if (formatBytesLoop bytes 0 4).2 = 0 then 0 else 1) ++
      ' ' :: SIZE_UNITS.getD (formatBytesLoop bytes 0 4).2 []

-- --- ANSI stripping ---

/-- Match `\x1b\[[0-9;]*[a-zA-Z]` at the head; returns the rest. -/
def matchCsi : List Char → Option (List Char)
  | c1 :: c2 :: rest =>
    if c1 = '\x1b' ∧ c2 = '[' then
      match rest.dropWhile isCsiParam with
      | c :: tail => if c.isAlpha then some tail else none
      | [] => none
    else none
  | _ => none

/-- Match the lazy body `.*?\x07` of the OSC alternative: shortest run of
non-line-terminator characters ending at the first BEL. -/
def matchOscBody : List Char → Option (List Char)
  | [] => none
  | c :: rest =>
    if c = '\x07' then some rest
    else if isDotChar c then matchOscBody rest
    else none

/-- Match `\x1b\].*?\x07` at the head; returns the rest. -/
def matchOsc : List Char → Option (List Char)
  | c1 :: c2 :: rest => if c1 = '\x1b' ∧ c2 = ']' then matchOscBody rest else none
  | _ => none

/-- Global replace of `ANSI_REGEX` by the empty string: left-to-right scan,
trying the CSI alternative first, then OSC, else keep one character.  Fuel
is the remaining length (each match consumes at least one character). -/
def stripGo : ℕ → List Char → List Char
  | _, [] => []
  | 0, s => s
  | fuel + 1, c :: rest =>
    match matchCsi (c :: rest) with
    | some tail => stripGo fuel tail
    | none =>
      match matchOsc (c :: rest) with
      | some tail => stripGo fuel tail
      | none => c :: stripGo fuel rest

/-- `stripAnsi` from `utils.ts`. -/
def stripAnsi (s : List Char) : List Char :=
  stripGo s.length s

end Mole

namespace Mole

-- --- Shared string constants of the source ---

def dryL : List Char := "dry".toList
def zeroBL : List Char := "0 B".toList
def nothingToCleanL : List Char := "Nothing to clean".toList
def potentialL : List Char := "Potential space:".toList
def itemsLitL : List Char := "Items:".toList
def categoriesLitL : List Char := "Categories:".toList
def wouldL : List Char := "would".toList
def wouldOpenL : List Char := " (would ".toList
def scanInitL : List Char := "正在掃描...".toList
def scanPrefixL : List Char := "正在掃描 ".toList
def ellipsisL : List Char := "...".toList
def libraryL : List Char := "Library".toList
def systemL : List Char := "System".toList
def moSpaceL : List Char := "mo ".toList
def failedSuffixL : List Char := " failed: ".toList
def moMissingL : List Char :=
  "Mole (mo) 未安裝。請先執行 `brew install mole` 或參考 https://github.com/tw93/mole".toList

-- --- The source's regexes as `RE` values ---

/-- `^<glyph>\s*(.+?),\s*([\d.]+\s*\w+)\s*dry$` (glyph `⊘` in `utils.ts`,
`→` in `clean.tsx`). -/
def dryItemRE (glyph : Char) : RE :=
  reSeq [.lit [glyph], .cls isJsSpace .starGreedy, .grp (.cls isDotChar .plusLazy),
         .lit [','], .cls isJsSpace .starGreedy,
         .grp (reSeq [.cls isNumDot .plusGreedy, .cls isJsSpace .starGreedy,
                      .cls isWordChar .plusGreedy]),
         .cls isJsSpace .starGreedy, .lit dryL, .eos]

/-- `^[✓]\s*(.+?),\s*([\d.]+\s*\w+)$` from `utils.ts`. -/
def successItemRE : RE :=
  reSeq [.lit ['✓'], .cls isJsSpace .starGreedy, .grp (.cls isDotChar .plusLazy),
         .lit [','], .cls isJsSpace .starGreedy,
         .grp (reSeq [.cls isNumDot .plusGreedy, .cls isJsSpace .starGreedy,
                      .cls isWordChar .plusGreedy]),
         .eos]

/-- `Potential space:\s*([\d.]+\s*\w+)\s*\|\s*Items:\s*(\d+)\s*\|\s*Categories:\s*(\d+)`
from `clean.tsx` (unanchored). -/
def summaryRE : RE :=
  reSeq [.lit potentialL, .cls isJsSpace .starGreedy,
         .grp (reSeq [.cls isNumDot .plusGreedy, .cls isJsSpace .starGreedy,
                      .cls isWordChar .plusGreedy]),
         .cls isJsSpace .starGreedy, .lit ['|'], .cls isJsSpace .starGreedy,
         .lit itemsLitL, .cls isJsSpace .starGreedy, .grp (.cls Char.isDigit .plusGreedy),
         .cls isJsSpace .starGreedy, .lit ['|'], .cls isJsSpace .starGreedy,
         .lit categoriesLitL, .cls isJsSpace .starGreedy, .grp (.cls Char.isDigit .plusGreedy)]

/-- `^→\s*(.+?)\s*·\s*would\s+(.+)` from `clean.tsx`. -/
def wouldRE : RE :=
  reSeq [.lit ['→'], .cls isJsSpace .starGreedy, .grp (.cls isDotChar .plusLazy),
         .cls isJsSpace .starGreedy, .lit ['·'], .cls isJsSpace .starGreedy,
         .lit wouldL, .cls isJsSpace .plusGreedy, .grp (.cls isDotChar .plusGreedy)]

/-- `^→\s*(.+)` from `clean.tsx`. -/
def simpleItemRE : RE :=
  reSeq [.lit ['→'], .cls isJsSpace .starGreedy, .grp (.cls isDotChar .plusGreedy)]

/-- `str.replace(/^<glyph>\s*/, "")` for a one-character glyph class. -/
def replaceGlyphPrefix (glyphs : List Char) (l : List Char) : List Char :=
  match l with
  | c :: rest => if c ∈ glyphs then rest.dropWhile isJsSpace else l
  | [] => []

-- --- `parseDryRunOutput` from `utils.ts` ---

structure CleanCategoryU where
  name : List Char
  size : List Char
  isDryRun : Bool
  items : List (List Char)
  deriving DecidableEq, Repr

/-- The body of the `parseDryRunOutput` loop on an already
stripped-and-trimmed line, acting on `(categories, currentCategory)`. -/
def processStrippedU (st : List CleanCategoryU × Option CleanCategoryU)
    (stripped : List Char) : List CleanCategoryU × Option CleanCategoryU :=
  if stripped.isEmpty then st
  else if stripped.head? = some '▶' ∨ stripped.head? = some '→' then
    let newCat : CleanCategoryU :=
      ⟨jsTrim (replaceGlyphPrefix ['▶', '→'] stripped), [], true, []⟩
    match st.2 with
    | some c => (st.1 ++ [c], some newCat)
    | none => (st.1, some newCat)
  else
    match st.2 with
    | none => st
    | some c =>
      match reMatchAt (dryItemRE '⊘') stripped with
      | some g => (st.1, some { c with items := c.items ++ [g.getD 0 []], size := g.getD 1 [] })
      | none =>
        match reMatchAt successItemRE stripped with
        | some g => (st.1, some { c with items := c.items ++ [g.getD 0 []], size := g.getD 1 [] })
        | none =>
          if listIncludes nothingToCleanL stripped then (st.1, some { c with size := zeroBL })
          else st

/-- One line of the `parseDryRunOutput` loop. -/
def processLineU (st : List CleanCategoryU × Option CleanCategoryU) (line : List Char) :
    List CleanCategoryU × Option CleanCategoryU :=
  processStrippedU st (jsTrim (stripAnsi line))

/-- `parseDryRunOutput` from `utils.ts`. -/
def parseDryRunOutput (output : List Char) : List CleanCategoryU :=
  let st := (splitNl output).foldl processLineU ([], none)
  let cats := match st.2 with
    | some c => st.1 ++ [c]
    | none => st.1
  cats.filter fun c => !c.name.isEmpty

-- --- The streaming clean scan of `clean.tsx` (`runDryRun`) ---

structure CleanItemM where
  description : List Char
  size : List Char
  deriving DecidableEq, Repr

/-- A category record; `tok` is a ghost field recording the scan token the
record was produced under (it has no counterpart in the source and never
influences control flow). -/
structure CleanCatM where
  name : List Char
  items : List CleanItemM
  totalSize : List Char
  tok : ℕ
  deriving DecidableEq, Repr

structure SummaryM where
  totalSize : List Char
  totalItems : List Char
  totalCategories : List Char
  tok : ℕ
  deriving DecidableEq, Repr

structure UIState where
  scanId : ℕ
  isLoading : Bool
  error : Option (List Char × ℕ)
  scanStatus : List Char
  summary : Option SummaryM
  categories : List CleanCatM
  categoriesRef : List CleanCatM
  currentCategory : Option CleanCatM
  deriving DecidableEq, Repr

/-- `finalizeCategorySize` from `clean.tsx`: sums the item sizes that parse
to a positive number; leaves `totalSize` alone when there are none. -/
def finalizeCategorySize (c : CleanCatM) : CleanCatM :=
  let sizes := (c.items.filterMap fun i => parseSizeToBytes i.size).filter (0 < ·)
  if sizes.isEmpty then c
  else { c with totalSize := formatBytesShort (sizes.foldl (· + ·) 0) }

/-- The body of the `onLine` callback in `runDryRun` (after its token guard
has passed), acting on an already stripped-and-trimmed line; `tok` tags the
ghost field of records it creates. -/
def applyCleanStripped (st : UIState) (tok : ℕ) (stripped : List Char) : UIState :=
  if stripped.isEmpty then st
  else
    match reSearch summaryRE stripped with
    | some g => { st with summary := some ⟨g.getD 0 [], g.getD 1 [], g.getD 2 [], tok⟩ }
    | none =>
      if stripped.head? = some '➤' then
        let name := jsTrim (replaceGlyphPrefix ['➤'] stripped)
        let pushed :=
          match st.currentCategory with
          | some c =>
            let fc := finalizeCategorySize c
            { st with categoriesRef := st.categoriesRef ++ [fc],
                      categories := st.categoriesRef ++ [fc] }
          | none => st
        { pushed with currentCategory := some ⟨name, [], [], tok⟩,
                      scanStatus := scanPrefixL ++ name ++ ellipsisL }
      else
        match st.currentCategory with
        | none => st
        | some c =>
          match reMatchAt (dryItemRE '→') stripped with
          | some g =>
            let c' := finalizeCategorySize
              { c with items := c.items ++ [⟨g.getD 0 [], g.getD 1 []⟩] }
            { st with currentCategory := some c',
                      categories := st.categoriesRef ++ [c'] }
          | none =>
            match reMatchAt wouldRE stripped with
            | some g =>
              let c' := { c with items :=
                c.items ++ [⟨g.getD 0 [] ++ wouldOpenL ++ g.getD 1 [] ++ [')'], []⟩] }
              { st with currentCategory := some c',
                        categories := st.categoriesRef ++ [c'] }
            | none =>
              let progress :=
                if stripped.head? = some '•' then
                  { st with scanStatus := replaceGlyphPrefix ['•'] stripped }
                else st
              match reMatchAt simpleItemRE stripped with
              | some g =>
                if (g.getD 0 []).head? = some '/' then progress
                else
                  let c' := { c with items := c.items ++ [⟨g.getD 0 [], []⟩] }
                  { st with currentCategory := some c',
                            categories := st.categoriesRef ++ [c'] }
              | none => progress

/-- The body of the `onLine` callback in `runDryRun` (after its token guard
has passed). -/
def applyCleanLine (st : UIState) (tok : ℕ) (line : List Char) : UIState :=
  applyCleanStripped st tok (jsTrim (stripAnsi line))

/-- The state mutations of one scan's lifecycle, each tagged with the scan
token captured by the closure that performs it. -/
inductive CleanEv where
  | start
  | line (tok : ℕ) (s : List Char)
  | commitFinal (tok : ℕ)
  | setError (tok : ℕ) (msg : List Char)
  | resetLoading (tok : ℕ)
  deriving DecidableEq, Repr

/-- One event of `runDryRun`: every mutation except `start` is guarded by
`currentScanIdRef.current !== scanId` exactly as in the source. -/
def cleanStep (st : UIState) : CleanEv → UIState
  | .start =>
    { scanId := st.scanId + 1, isLoading := true, error := none,
      scanStatus := scanInitL, summary := none, categories := [],
      categoriesRef := [], currentCategory := none }
  | .line tok s => if tok = st.scanId then applyCleanLine st tok s else st
  | .commitFinal tok =>
    if tok = st.scanId then
      match st.currentCategory with
      | some c =>
        let fc := finalizeCategorySize c
        { st with categoriesRef := st.categoriesRef ++ [fc],
                  categories := st.categoriesRef ++ [fc],
                  currentCategory := some fc }
      | none => st
    else st
  | .setError tok msg => if tok = st.scanId then { st with error := some (msg, tok) } else st
  | .resetLoading tok =>
    if tok = st.scanId then { st with isLoading := false, scanStatus := [] } else st

def initUIState : UIState :=
  ⟨0, true, none, [], none, [], [], none⟩

def cleanRun (evs : List CleanEv) : UIState :=
  evs.foldl cleanStep initUIState

/-- A single uninterrupted scan over a list of lines, as `runDryRun`
executes it when no second scan intervenes. -/
def runCleanScan (lines : List (List Char)) : UIState :=
  cleanRun (.start :: (lines.map (.line 1) ++ [.commitFinal 1, .resetLoading 1]))

-- --- `spawnMoStreaming` line delivery (`utils.ts`) ---

/-- One `data` chunk: append to the buffer, split on newlines, emit the
complete lines, keep the incomplete last piece. -/
def feedChunk (st : List (List Char) × List Char) (chunk : List Char) :
    List (List Char) × List Char :=
  let parts := splitNl (st.2 ++ chunk)
  (st.1 ++ parts.dropLast, parts.getLastD [])

def streamChunks (chunks : List (List Char)) : List (List Char) × List Char :=
  chunks.foldl feedChunk ([], [])

/-- The `close` handler: flush the remainder when its trim is non-empty. -/
def streamClose (st : List (List Char) × List Char) : List (List Char) :=
  if (jsTrim st.2).isEmpty then st.1 else st.1 ++ [st.2]

/-- All lines `onLine` receives for a given stdout chunk sequence. -/
def spawnMoStreamingLines (chunks : List (List Char)) : List (List Char) :=
  streamClose (streamChunks chunks)

-- --- `execMo` error policy (`utils.ts`) ---

/-- `error.stderr || error.message || String(err)` — the diagnostic text of
the thrown error. -/
def execMoDetail (stderr message errStr : List Char) : List Char :=
  if !stderr.isEmpty then stderr
  else if !message.isEmpty then message else errStr

/-- The catch logic of `execMo`, as a function of the subprocess outcome:
exit code, captured stdout/stderr, the error's `message`, and its string
rendering.  `Except.error` is the thrown `Error`'s message. -/
def execMoOutcome (args : List (List Char)) (exitCode : ℕ)
    (stdout stderr message errStr : List Char) : Except (List Char) (List Char) :=
  if exitCode = 0 then .ok stdout
  else if !stdout.isEmpty && !(jsTrim stdout).isEmpty then .ok stdout
  else
    .error (moSpaceL ++ List.intercalate [' '] args ++ failedSuffixL ++
      execMoDetail stderr message errStr)

-- --- `getMoPath` resolution (`utils.ts`) ---

def MO_SEARCH_PATHS (home : List Char) : List (List Char) :=
  [r"/usr/local/bin/mo".toList, r"/opt/homebrew/bin/mo".toList,
   home ++ "/.local/bin/mo".toList, r"/opt/local/bin/mo".toList]

/-- The environment `getMoPath` consults: the stdout of `which mo` (`none`
when `which` threw) and the filesystem existence test. -/
structure MoEnv where
  whichOut : Option (List Char)
  fileExists : List Char → Bool
  home : List Char

/-- `getMoPath`: returns the updated `cachedMoPath` and the result. -/
def getMoPath (cached : Option (List Char)) (env : MoEnv) :
    Option (List Char) × Except (List Char) (List Char) :=
  match cached with
  | some p => (some p, .ok p)
  | none =>
    let tryWhich : Option (List Char) :=
      match env.whichOut with
      | none => none
      | some out =>
        let resolved := jsTrim out
        if !resolved.isEmpty && env.fileExists resolved then some resolved else none
    match tryWhich with
    | some r => (some r, .ok r)
    | none =>
      match (MO_SEARCH_PATHS env.home).find? env.fileExists with
      | some c => (some c, .ok c)
      | none => (none, .error moMissingL)

-- --- `findPurgeTargetsNative` (`purge.tsx`) ---

/-- A filesystem tree; directory entry names are `List Char`. -/
inductive FsTree where
  | file (name : List Char)
  | dir (name : List Char) (children : List FsTree)
  deriving Repr

/-- A discovered purge target (`PurgeItem` without the UI size fields);
`path` is the component list of the absolute path. -/
structure Pitem where
  name : List Char
  path : List (List Char)
  project : List Char
  deriving DecidableEq, Repr

/-- The body of `findPurgeTargetsNative` processing the entries of the
directory at `dirPath` (whose own call carried depth `d`).  Returns the
discovered items and the list of directories the walk read.  `fuel`
decreases on every descent; every reachable call has
`fuel = maxDepth + 2 - d > 0`, so the fuel-exhausted branch is inert. -/
def walkEnts (targets : List (List Char)) (maxDepth : ℕ) :
    ℕ → ℕ → List (List Char) → List FsTree → List Pitem × List (List (List Char))
  | 0, _, _, _ => ([], [])
  | fuel + 1, d, dirPath, ents =>
    List.foldr
      (fun ent tailRes =>
        match ent with
        | .file _ => tailRes
        | .dir name children =>
          if (name.head? = some '.' ∧ name ∉ targets) ∨ name = libraryL ∨ name = systemL then
            tailRes
          else if name ∈ targets then
            (⟨name, dirPath ++ [name], dirPath.getLastD []⟩ :: tailRes.1, tailRes.2)
          else if maxDepth < d + 1 then tailRes
          else
            let sub := walkEnts targets maxDepth fuel (d + 1) (dirPath ++ [name]) children
            (sub.1 ++ tailRes.1, ((dirPath ++ [name]) :: sub.2) ++ tailRes.2))
      ([], []) ents

/-- `findPurgeTargetsNative(root, 1, maxDepth, targets, results)` on a
modelled tree: discovered items plus the directories read. -/
def findPurgeTargetsNative (targets : List (List Char)) (maxDepth : ℕ)
    (rootPath : List (List Char)) (root : FsTree) :
    List Pitem × List (List (List Char)) :=
  match root with
  | .file _ => ([], [])
  | .dir _ children =>
    if maxDepth < 1 then ([], [])
    else
      let r := walkEnts targets maxDepth (maxDepth + 1) 1 rootPath children
      (r.1, rootPath :: r.2)

end Mole

namespace Mole

-- --- C10 ---

/-- C10: for every number `b ≤ 0` (negative inputs included),
`formatBytes b` is the string `"0 B"`; negative byte counts are never
formatted as negative sizes. -/
theorem C10_formatBytes_nonpos (b : ℚ) (h : b ≤ 0) : formatBytes b = "0 B".toList := by
  unfold formatBytes
  rw [if_pos h]

/-- Witness for C10 at `b = -5`. -/
theorem C10_formatBytes_nonpos_witness : formatBytes (-5) = "0 B".toList :=
  C10_formatBytes_nonpos (-5) (by norm_num)

-- --- C6 ---

/-- C6 counterexample: a non-zero exit with the non-empty stdout `" "`
still raises (the code demands non-empty *trimmed* stdout), refuting "an
error is raised only when stdout is empty". -/
theorem C6_counterexample :
    ([' '] : List Char) ≠ [] ∧
    execMoOutcome [['c']] 1 [' '] (r"boom".toList) [] [] =
      .error ((r"mo c failed: boom").toList) := by
  exact ⟨by decide, rfl⟩

/-- C6 (amended): on non-zero exit, stdout is returned iff it is non-blank
after trimming; otherwise the raised error names the verb (the
space-joined argument list) and carries the diagnostic text
(`stderr`, else `message`, else the error's string form). -/
theorem C6_execMo_policy (args : List (List Char)) (ec : ℕ)
    (out err msg es : List Char) (hec : ec ≠ 0) :
    (jsTrim out ≠ [] → execMoOutcome args ec out err msg es = .ok out) ∧
    (jsTrim out = [] → execMoOutcome args ec out err msg es =
      .error (moSpaceL ++ List.intercalate [' '] args ++ failedSuffixL ++
        execMoDetail err msg es)) := by
  unfold execMoOutcome
  rw [if_neg hec]
  constructor
  · intro h
    have hout : out ≠ [] := by
      intro he
      exact h (by rw [he]; rfl)
    rw [if_pos]
    simp [List.isEmpty_iff, hout, h]
  · intro h
    rw [if_neg]
    simp [List.isEmpty_iff, h]

/-- Witness for C6 (amended) at concrete outcomes. -/
theorem C6_execMo_policy_witness :
    execMoOutcome [['x']] 1 ['a'] ['e'] [] [] = .ok ['a'] ∧
    execMoOutcome [['x']] 1 [] ['e'] [] [] =
      .error (moSpaceL ++ List.intercalate [' '] [[
        'x']] ++ failedSuffixL ++ execMoDetail ['e'] [] []) :=
  ⟨(C6_execMo_policy [['x']] 1 ['a'] ['e'] [] [] (by decide)).1 (by decide),
   (C6_execMo_policy [['x']] 1 [] ['e'] [] [] (by decide)).2 (by decide)⟩

-- --- C7 ---

/-- Whether the `which mo` strategy of `getMoPath` yields a usable path. -/
def whichUsable (env : MoEnv) : Bool :=
  match env.whichOut with
  | none => false
  | some out => !(jsTrim out).isEmpty && env.fileExists (jsTrim out)

/-- The result of the `which`-based first strategy of `getMoPath`. -/
def whichResolved (env : MoEnv) : Option (List Char) :=
  match env.whichOut with
  | none => none
  | some out =>
    if !(jsTrim out).isEmpty && env.fileExists (jsTrim out) then some (jsTrim out) else none

lemma getMoPath_none (env : MoEnv) :
    getMoPath none env =
      match whichResolved env with
      | some r => (some r, .ok r)
      | none =>
        match (MO_SEARCH_PATHS env.home).find? env.fileExists with
        | some c => (some c, .ok c)
        | none => (none, .error moMissingL) := rfl

lemma whichUsable_false_iff (env : MoEnv) :
    whichUsable env = false ↔ whichResolved env = none := by
  unfold whichUsable whichResolved
  cases env.whichOut with
  | none => simp
  | some out =>
    by_cases h : (!(jsTrim out).isEmpty && env.fileExists (jsTrim out)) = true
    · simp [h]
    · simp only [Bool.not_eq_true] at h
      simp [h]

/-- An environment in which `which mo` answers a usable path while a
well-known install location also exists. -/
def c7env : MoEnv :=
  ⟨some (r" /which/mo".toList ++ ['\n']),
   fun p => p == r"/which/mo".toList || p == r"/usr/local/bin/mo".toList,
   r"/h".toList⟩

/-- C7 counterexample: a well-known install location exists, yet
`getMoPath` returns the `which` answer — the code consults `which` first
and falls back to the well-known locations, not the other way round. -/
theorem C7_counterexample :
    c7env.fileExists (r"/usr/local/bin/mo".toList) = true ∧
    (r"/usr/local/bin/mo".toList) ∈ MO_SEARCH_PATHS c7env.home ∧
    getMoPath none c7env = (some (r"/which/mo".toList), .ok (r"/which/mo".toList)) ∧
    (r"/which/mo".toList : List Char) ≠ r"/usr/local/bin/mo".toList := by
  refine ⟨by decide, by decide, rfl, by decide⟩

/-- C7 (amended): `getMoPath` attempts the `which`-style lookup first and
scans the ordered well-known locations only when `which` fails or names a
non-existing path; a cached result short-circuits everything, a first
success is memoized, and the engine-not-found error occurs exactly when
both strategies exhaust. -/
theorem C7_getMoPath_policy :
    (∀ p env, getMoPath (some p) env = (some p, .ok p)) ∧
    (∀ env p, (getMoPath none env).2 = .ok p → (getMoPath none env).1 = some p) ∧
    (∀ env out, env.whichOut = some out →
      jsTrim out ≠ [] → env.fileExists (jsTrim out) = true →
      getMoPath none env = (some (jsTrim out), .ok (jsTrim out))) ∧
    (∀ env, whichUsable env = false →
      getMoPath none env =
        match (MO_SEARCH_PATHS env.home).find? env.fileExists with
        | some c => (some c, .ok c)
        | none => (none, .error moMissingL)) ∧
    (∀ env, (getMoPath none env).2 = .error moMissingL ↔
      whichUsable env = false ∧ (MO_SEARCH_PATHS env.home).find? env.fileExists = none) := by
  refine ⟨fun p env => rfl, ?_, ?_, ?_, ?_⟩
  · intro env p h
    rw [getMoPath_none] at *
    cases hw : whichResolved env with
    | some r => simp [hw] at h ⊢; exact h
    | none =>
      cases hf : (MO_SEARCH_PATHS env.home).find? env.fileExists with
      | some c => simp [hw, hf] at h ⊢; exact h
      | none => simp [hw, hf] at h
  · intro env out hout hne hex
    rw [getMoPath_none]
    have : whichResolved env = some (jsTrim out) := by
      unfold whichResolved
      rw [hout]
      simp only [List.isEmpty_iff, hne, hex, Bool.not_eq_true, and_self,
        Bool.and_true, decide_not]
      rw [if_pos]
      simp [List.isEmpty_iff, hne]
    rw [this]
  · intro env hw
    rw [getMoPath_none, (whichUsable_false_iff env).mp hw]
  · intro env
    rw [getMoPath_none]
    constructor
    · intro h
      cases hw : whichResolved env with
      | some r => rw [hw] at h; exact absurd h (by simp)
      | none =>
        rw [hw] at h
        refine ⟨(whichUsable_false_iff env).mpr hw, ?_⟩
        cases hf : (MO_SEARCH_PATHS env.home).find? env.fileExists with
        | some c => rw [hf] at h; exact absurd h (by simp)
        | none => rfl
    · rintro ⟨h1, h2⟩
      rw [(whichUsable_false_iff env).mp h1, h2]

end Mole

namespace Mole

/-- An environment in which `which` fails and only one well-known location
exists. -/
def c7envFallback : MoEnv :=
  ⟨none, fun p => p == r"/opt/homebrew/bin/mo".toList, r"/h".toList⟩

/-- Witness for C7 (amended): the cached path short-circuits, and with
`which` unavailable the first existing well-known location is returned. -/
theorem C7_getMoPath_policy_witness :
    getMoPath (some ['m']) c7envFallback = (some ['m'], .ok ['m']) ∧
    getMoPath none c7envFallback =
      (some (r"/opt/homebrew/bin/mo".toList), .ok (r"/opt/homebrew/bin/mo".toList)) ∧
    getMoPath none c7env = (some (r"/which/mo".toList), .ok (r"/which/mo".toList)) := by
  refine ⟨C7_getMoPath_policy.1 ['m'] c7envFallback, ?_, ?_⟩
  · exact (C7_getMoPath_policy.2.2.2.1 c7envFallback rfl).trans rfl
  · exact (C7_getMoPath_policy.2.2.1 c7env (r" /which/mo".toList ++ ['\n']) rfl
      (by decide) rfl).trans rfl

end Mole

namespace Mole

-- --- C5: splitNl structure lemmas ---

lemma splitNl_cons_nl (rest : List Char) : splitNl ('\n' :: rest) = [] :: splitNl rest := by
  simp [splitNl]

lemma splitNl_cons_other (c : Char) (rest : List Char) (hc : c ≠ '\n') :
    splitNl (c :: rest) =
      match splitNl rest with
      | [] => [[c]]
      | l :: ls => (c :: l) :: ls := by
  simp [splitNl, hc]

lemma splitNl_ne_nil (s : List Char) : splitNl s ≠ [] := by
  cases s with
  | nil => simp [splitNl]
  | cons c rest =>
    by_cases h : c = '\n'
    · subst h; simp [splitNl_cons_nl]
    · rw [splitNl_cons_other c rest h]
      cases splitNl rest <;> simp

/-- Prepend a partial first piece to a split (the merge that happens at a
chunk boundary). -/
def consHead (pre : List Char) : List (List Char) → List (List Char)
  | [] => [pre]
  | l :: ls => (pre ++ l) :: ls

lemma consHead_ne_nil (pre : List Char) (ls : List (List Char)) : consHead pre ls ≠ [] := by
  cases ls <;> simp [consHead]

lemma getLastD_congr (l : List α) (h : l ≠ []) (d d' : α) : l.getLastD d = l.getLastD d' := by
  cases l with
  | nil => exact absurd rfl h
  | cons a t => rw [List.getLastD_cons, List.getLastD_cons]

lemma getLastD_append_ne_nil (x y : List α) (d : α) (h : y ≠ []) :
    (x ++ y).getLastD d = y.getLastD d := by
  induction x generalizing d with
  | nil => rfl
  | cons a t ihx =>
    rw [List.cons_append, List.getLastD_cons, ihx a, getLastD_congr y h a d]

lemma splitNl_no_newline (s : List Char) (h : '\n' ∉ s) : splitNl s = [s] := by
  induction s with
  | nil => rfl
  | cons c rest ih =>
    have hc : c ≠ '\n' := fun hc => h (hc ▸ List.mem_cons_self c rest)
    rw [splitNl_cons_other c rest hc, ih (fun hm => h (List.mem_cons_of_mem c hm))]

lemma newline_not_mem_splitNl_last (s : List Char) : '\n' ∉ (splitNl s).getLastD [] := by
  induction s with
  | nil => simp [splitNl]
  | cons c rest ih =>
    by_cases hc : c = '\n'
    · subst hc
      rw [splitNl_cons_nl, List.getLastD_cons,
        getLastD_congr (splitNl rest) (splitNl_ne_nil rest) [] []]
      exact ih
    · rw [splitNl_cons_other c rest hc]
      obtain ⟨l, ls, h⟩ := List.exists_cons_of_ne_nil (splitNl_ne_nil rest)
      rw [h] at ih
      rw [h]
      cases ls with
      | nil =>
        rw [List.getLastD_cons, List.getLastD_nil] at ih
        simp only [List.getLastD_cons, List.getLastD_nil]
        intro hm
        rcases List.mem_cons.mp hm with h1 | h2
        · exact hc h1.symm
        · exact ih h2
      | cons l2 ls2 =>
        rw [List.getLastD_cons, List.getLastD_cons] at ih
        simp only [List.getLastD_cons]
        exact ih

lemma splitNl_append (a b : List Char) :
    splitNl (a ++ b) =
      (splitNl a).dropLast ++ consHead ((splitNl a).getLastD []) (splitNl b) := by
  induction a with
  | nil =>
    obtain ⟨m, ms, hb⟩ := List.exists_cons_of_ne_nil (splitNl_ne_nil b)
    simp [splitNl, hb, consHead]
  | cons c rest ih =>
    by_cases hc : c = '\n'
    · subst hc
      rw [List.cons_append, splitNl_cons_nl, splitNl_cons_nl, ih]
      obtain ⟨l, ls, h⟩ := List.exists_cons_of_ne_nil (splitNl_ne_nil rest)
      rw [h]
      simp only [List.dropLast_cons₂, List.cons_append, List.getLastD_cons]
    · rw [List.cons_append, splitNl_cons_other c (rest ++ b) hc,
        splitNl_cons_other c rest hc, ih]
      obtain ⟨l, ls, h⟩ := List.exists_cons_of_ne_nil (splitNl_ne_nil rest)
      rw [h]
      cases ls with
      | nil =>
        obtain ⟨m, ms, hb⟩ := List.exists_cons_of_ne_nil (splitNl_ne_nil b)
        rw [hb]
        simp [consHead]
      | cons l2 ls2 =>
        simp only [List.dropLast_cons₂, List.cons_append, List.getLastD_cons]

end Mole

namespace Mole

lemma streamChunks_fold (cs : List (List Char)) :
    ∀ (E : List (List Char)) (B : List Char), '\n' ∉ B →
      cs.foldl feedChunk (E, B) =
        (E ++ (splitNl (B ++ cs.flatten)).dropLast,
         (splitNl (B ++ cs.flatten)).getLastD []) := by
  induction cs with
  | nil =>
    intro E B hB
    simp [splitNl_no_newline B hB]
  | cons c cs' ih =>
    intro E B hB
    have h1 : feedChunk (E, B) c =
        (E ++ (splitNl (B ++ c)).dropLast, (splitNl (B ++ c)).getLastD []) := rfl
    rw [List.foldl_cons, h1, ih _ _ (newline_not_mem_splitNl_last (B ++ c))]
    have hcons : consHead ((splitNl (B ++ c)).getLastD []) (splitNl cs'.flatten) =
        splitNl ((splitNl (B ++ c)).getLastD [] ++ cs'.flatten) := by
      rw [splitNl_append ((splitNl (B ++ c)).getLastD []) cs'.flatten,
        splitNl_no_newline _ (newline_not_mem_splitNl_last (B ++ c))]
      simp
    rw [List.flatten_cons, ← List.append_assoc, splitNl_append (B ++ c) cs'.flatten, ← hcons]
    refine Prod.ext ?_ ?_
    · simp only
      rw [List.dropLast_append_of_ne_nil _ (consHead_ne_nil _ _), List.append_assoc]
    · simp only
      rw [getLastD_append_ne_nil _ _ _ (consHead_ne_nil _ _)]

/-- C5 counterexample: after `"ab\n"` a whitespace-only chunk leaves the
remainder `"  "`, which is non-empty yet is not flushed on close (the code
flushes only when the trimmed remainder is non-empty). -/
theorem C5_counterexample :
    (streamChunks [['a', 'b', '\n'], [' ', ' ']]).2 = [' ', ' '] ∧
    ([' ', ' '] : List Char) ≠ [] ∧
    spawnMoStreamingLines [['a', 'b', '\n'], [' ', ' ']] = [['a', 'b']] := by
  refine ⟨rfl, by decide, rfl⟩

/-- C5 (amended): for every chunk sequence, the lines delivered while the
process runs are exactly the newline-terminated lines of the concatenated
output in emission order — independent of how the output is cut into
chunks — and the trailing unterminated piece is retained in the buffer; on
close, the remainder is flushed as one final line exactly when it contains
a non-whitespace character (a whitespace-only remainder is dropped). -/
theorem C5_streaming_lines (chunks : List (List Char)) :
    (streamChunks chunks).1 = (splitNl chunks.flatten).dropLast ∧
    (streamChunks chunks).2 = (splitNl chunks.flatten).getLastD [] ∧
    spawnMoStreamingLines chunks =
      (if (jsTrim ((splitNl chunks.flatten).getLastD [])).isEmpty then
        (splitNl chunks.flatten).dropLast
      else (splitNl chunks.flatten).dropLast ++ [(splitNl chunks.flatten).getLastD []]) := by
  have h := streamChunks_fold chunks [] [] (by simp)
  have h1 : streamChunks chunks =
      ((splitNl chunks.flatten).dropLast, (splitNl chunks.flatten).getLastD []) := by
    unfold streamChunks
    rw [h]
    simp
  refine ⟨by rw [h1], by rw [h1], ?_⟩
  unfold spawnMoStreamingLines streamClose
  rw [h1]

end Mole

namespace Mole

-- --- Character-class facts ---

lemma alpha_not_digit {c : Char} (h : c.isAlpha = true) : c.isDigit = false := by
  simp [Char.isAlpha, Char.isUpper, Char.isLower, Char.isDigit, UInt32.le_def,
    UInt32.lt_def, Fin.le_def, BitVec.le_def, BitVec.lt_def] at *
  omega

lemma alpha_ne {c : Char} (h : c.isAlpha = true) (d : Char) (hd : d.isAlpha = false) :
    c ≠ d := by
  intro he
  rw [he, hd] at h
  cases h

lemma alpha_isCsiParam_false {c : Char} (h : c.isAlpha = true) : isCsiParam c = false := by
  unfold isCsiParam
  rw [alpha_not_digit h]
  simp [alpha_ne h ';' (by decide)]

lemma alpha_isNumDot_false {c : Char} (h : c.isAlpha = true) : isNumDot c = false := by
  unfold isNumDot
  rw [alpha_not_digit h]
  simp [alpha_ne h '.' (by decide)]

lemma jsSpace_cases {c : Char} (h : isJsSpace c = true) :
    c = ' ' ∨ c = '\t' ∨ c = '\n' ∨ c = '\r' ∨ c = '\x0b' ∨ c = '\x0c' ∨
    c = ' ' ∨ c = '﻿' := by
  have h2 := by simpa [isJsSpace] using h
  tauto

lemma jsSpace_isNumDot_false {c : Char} (h : isJsSpace c = true) : isNumDot c = false := by
  rcases jsSpace_cases h with h | h | h | h | h | h | h | h <;> subst h <;> decide

lemma jsSpace_isWordChar_false {c : Char} (h : isJsSpace c = true) : isWordChar c = false := by
  rcases jsSpace_cases h with h | h | h | h | h | h | h | h <;> subst h <;> decide

lemma alpha_isJsSpace_false {c : Char} (h : c.isAlpha = true) : isJsSpace c = false := by
  cases hs : isJsSpace c with
  | false => rfl
  | true =>
    have := jsSpace_isWordChar_false hs
    rw [isWordChar, h] at this
    simp at this

lemma alpha_isWordChar_true {c : Char} (h : c.isAlpha = true) : isWordChar c = true := by
  simp [isWordChar, h]

lemma digit_isJsSpace_false {c : Char} (h : c.isDigit = true) : isJsSpace c = false := by
  cases hs : isJsSpace c with
  | false => rfl
  | true =>
    rcases jsSpace_cases hs with h2 | h2 | h2 | h2 | h2 | h2 | h2 | h2 <;> subst h2 <;>
      simp at h

lemma numDot_isJsSpace_false {c : Char} (h : isNumDot c = true) : isJsSpace c = false := by
  cases hs : isJsSpace c with
  | false => rfl
  | true =>
    have := jsSpace_isNumDot_false hs
    rw [h] at this
    cases this

-- --- C9: stripAnsi ---

lemma length_dropWhile_le' (p : Char → Bool) (l : List Char) :
    (l.dropWhile p).length ≤ l.length := by
  induction l with
  | nil => simp
  | cons a t ih =>
    by_cases h : p a
    · rw [List.dropWhile_cons_of_pos h]
      simp only [List.length_cons]
      omega
    · rw [List.dropWhile_cons_of_neg h]

lemma matchCsi_some_length {s t : List Char} (h : matchCsi s = some t) :
    t.length + 3 ≤ s.length := by
  match s with
  | [] => cases h
  | [c1] => cases h
  | c1 :: c2 :: rest =>
    simp only [matchCsi] at h
    by_cases hp : c1 = '\x1b' ∧ c2 = '['
    · rw [if_pos hp] at h
      cases hd : rest.dropWhile isCsiParam with
      | nil => rw [hd] at h; cases h
      | cons c tail =>
        simp only [hd] at h
        by_cases ha : c.isAlpha = true
        · rw [if_pos ha] at h
          have ht : t = tail := by injection h with h2; exact h2.symm
          subst ht
          have h1 : t.length + 1 ≤ (rest.dropWhile isCsiParam).length := by
            rw [hd]; simp
          have h2 : (rest.dropWhile isCsiParam).length ≤ rest.length :=
            length_dropWhile_le' isCsiParam rest
          simp only [List.length_cons]
          omega
        · rw [if_neg ha] at h; cases h
    · rw [if_neg hp] at h; cases h

lemma matchOscBody_some_length {s t : List Char} (h : matchOscBody s = some t) :
    t.length + 1 ≤ s.length := by
  induction s generalizing t with
  | nil => cases h
  | cons c rest ih =>
    unfold matchOscBody at h
    by_cases hb : c = '\x07'
    · rw [if_pos hb] at h
      cases h
      simp
    · rw [if_neg hb] at h
      by_cases hd : isDotChar c = true
      · rw [if_pos hd] at h
        have := ih h
        simp only [List.length_cons]
        omega
      · simp only [Bool.not_eq_true] at hd
        rw [hd] at h
        simp at h
    
lemma matchOsc_some_length {s t : List Char} (h : matchOsc s = some t) :
    t.length + 3 ≤ s.length := by
  match s with
  | [] => cases h
  | [c1] => cases h
  | c1 :: c2 :: rest =>
    simp only [matchOsc] at h
    by_cases hp : c1 = '\x1b' ∧ c2 = ']'
    · rw [if_pos hp] at h
      have := matchOscBody_some_length h
      simp only [List.length_cons]
      omega
    · rw [if_neg hp] at h; cases h

lemma stripGo_congr (fuel₁ : ℕ) :
    ∀ (fuel₂ : ℕ) (s : List Char), s.length ≤ fuel₁ → s.length ≤ fuel₂ →
      stripGo fuel₁ s = stripGo fuel₂ s := by
  induction fuel₁ with
  | zero =>
    intro fuel₂ s h1 _
    have : s = [] := List.eq_nil_of_length_eq_zero (Nat.le_zero.mp h1)
    subst this
    cases fuel₂ <;> rfl
  | succ f ih =>
    intro fuel₂ s h1 h2
    cases s with
    | nil => cases fuel₂ <;> rfl
    | cons c rest =>
      cases fuel₂ with
      | zero => simp at h2
      | succ f₂ =>
        show stripGo (f + 1) (c :: rest) = stripGo (f₂ + 1) (c :: rest)
        unfold stripGo
        cases hcsi : matchCsi (c :: rest) with
        | some tail =>
          have hl := matchCsi_some_length hcsi
          simp only [List.length_cons] at hl h1 h2
          exact ih f₂ tail (by omega) (by omega)
        | none =>
          cases hosc : matchOsc (c :: rest) with
          | some tail =>
            have hl := matchOsc_some_length hosc
            simp only [List.length_cons] at hl h1 h2
            exact ih f₂ tail (by omega) (by omega)
          | none =>
            simp only [List.length_cons] at h1 h2
            rw [ih f₂ rest (by omega) (by omega)]

lemma stripGo_eq_stripAnsi {fuel : ℕ} {s : List Char} (h : s.length ≤ fuel) :
    stripGo fuel s = stripAnsi s :=
  stripGo_congr fuel s.length s h le_rfl

lemma stripGo_match_csi {fuel : ℕ} {s t : List Char} (h : matchCsi s = some t) :
    stripGo (fuel + 1) s = stripGo fuel t := by
  cases s with
  | nil => cases h
  | cons c rest =>
    simp only [stripGo, h]

lemma stripGo_match_osc {fuel : ℕ} {s t : List Char} (hn : matchCsi s = none)
    (h : matchOsc s = some t) : stripGo (fuel + 1) s = stripGo fuel t := by
  cases s with
  | nil => cases h
  | cons c rest =>
    simp only [stripGo, hn, h]

lemma dropWhile_all_append {p : Char → Bool} {l : List Char} (r : List Char)
    (h : ∀ x ∈ l, p x = true) : (l ++ r).dropWhile p = r.dropWhile p := by
  induction l with
  | nil => rfl
  | cons a t ih =>
    rw [List.cons_append, List.dropWhile_cons_of_pos (h a (List.mem_cons_self a t))]
    exact ih (fun x hx => h x (List.mem_cons_of_mem a hx))

lemma matchOscBody_all {body rest : List Char}
    (h : ∀ b ∈ body, isDotChar b = true ∧ b ≠ '\x07') :
    matchOscBody (body ++ '\x07' :: rest) = some rest := by
  induction body with
  | nil => rfl
  | cons b t ih =>
    obtain ⟨hd, hb⟩ := h b (List.mem_cons_self b t)
    rw [List.cons_append]
    unfold matchOscBody
    rw [if_neg hb, if_pos hd]
    exact ih (fun x hx => h x (List.mem_cons_of_mem b hx))

/-- C9 counterexample: the malformed escape `"\x1b@"` passes through, so
`stripAnsi` output can contain the escape byte — refuting "returns text
containing no escape bytes". -/
theorem C9_counterexample :
    stripAnsi ['\x1b', '@'] = ['\x1b', '@'] ∧ '\x1b' ∈ stripAnsi ['\x1b', '@'] := by
  exact ⟨rfl, by decide⟩

/-- C9 (amended): `stripAnsi` is a total pure function that removes every
CSI sequence `ESC [ <params> <letter>` and every completed OSC sequence
`ESC ] <body> BEL` (body free of BEL and line terminators) wherever they
occur, and passes every character that starts no such sequence through
unchanged — so escape bytes of malformed sequences remain in the output. -/
theorem C9_stripAnsi_spec :
    (∀ params c rest, (∀ p ∈ params, isCsiParam p = true) → c.isAlpha = true →
      stripAnsi ('\x1b' :: '[' :: (params ++ c :: rest)) = stripAnsi rest) ∧
    (∀ body rest, (∀ b ∈ body, isDotChar b = true ∧ b ≠ '\x07') →
      stripAnsi ('\x1b' :: ']' :: (body ++ '\x07' :: rest)) = stripAnsi rest) ∧
    (∀ c rest, c ≠ '\x1b' → stripAnsi (c :: rest) = c :: stripAnsi rest) := by
  refine ⟨?_, ?_, ?_⟩
  · intro params c rest hp hc
    have hd : (params ++ c :: rest).dropWhile isCsiParam = c :: rest := by
      rw [dropWhile_all_append _ hp]
      exact List.dropWhile_cons_of_neg (by rw [alpha_isCsiParam_false hc]; simp)
    have hm : matchCsi ('\x1b' :: '[' :: (params ++ c :: rest)) = some rest := by
      simp only [matchCsi, hd]
      rw [if_pos (by trivial), if_pos hc]
    show stripGo ('\x1b' :: '[' :: (params ++ c :: rest)).length _ = _
    have hlen : ('\x1b' :: '[' :: (params ++ c :: rest)).length =
        (params.length + rest.length + 2) + 1 := by
      simp only [List.length_cons, List.length_append]
      omega
    rw [hlen, stripGo_match_csi hm]
    exact stripGo_eq_stripAnsi (by omega)
  · intro body rest hb
    have hn : matchCsi ('\x1b' :: ']' :: (body ++ '\x07' :: rest)) = none := by
      simp only [matchCsi]
      rw [if_neg (by decide)]
    have hm : matchOsc ('\x1b' :: ']' :: (body ++ '\x07' :: rest)) = some rest := by
      simp only [matchOsc]
      rw [if_pos (by trivial), matchOscBody_all hb]
    show stripGo ('\x1b' :: ']' :: (body ++ '\x07' :: rest)).length _ = _
    have hlen : ('\x1b' :: ']' :: (body ++ '\x07' :: rest)).length =
        (body.length + rest.length + 2) + 1 := by
      simp only [List.length_cons, List.length_append]
      omega
    rw [hlen, stripGo_match_osc hn hm]
    exact stripGo_eq_stripAnsi (by omega)
  · intro c rest hc
    have hn1 : matchCsi (c :: rest) = none := by
      cases rest with
      | nil => rfl
      | cons c2 r2 =>
        simp only [matchCsi]
        rw [if_neg (fun hp => hc hp.1)]
    have hn2 : matchOsc (c :: rest) = none := by
      cases rest with
      | nil => rfl
      | cons c2 r2 =>
        simp only [matchOsc]
        rw [if_neg (fun hp => hc hp.1)]
    show stripGo (c :: rest).length _ = _
    simp only [List.length_cons]
    unfold stripGo
    rw [hn1, hn2, stripGo_eq_stripAnsi (le_refl rest.length)]

/-- Witness for C9 (amended) on concrete sequences. -/
theorem C9_stripAnsi_spec_witness :
    stripAnsi ("\x1b[31mok".toList) = "ok".toList ∧
    stripAnsi ("\x1b]0;t\x07ok".toList) = "ok".toList ∧
    stripAnsi ("aok".toList) = 'a' :: stripAnsi ("ok".toList) := by
  refine ⟨?_, ?_, C9_stripAnsi_spec.2.2 'a' ("ok".toList) (by decide)⟩
  · have h := C9_stripAnsi_spec.1 ['3', '1'] 'm' ("ok".toList) (by decide) (by decide)
    exact h.trans (by rfl)
  · have h := C9_stripAnsi_spec.2.1 ['0', ';', 't'] ("ok".toList) (by decide)
    exact h.trans (by rfl)

end Mole

namespace Mole

-- --- Generic evaluation lemmas for the regex matcher ---

lemma firstSome_head {f : ℕ → Option α} {n : ℕ} {ns : List ℕ} {v : α}
    (h : f n = some v) : firstSome (n :: ns) f = some v := by
  unfold firstSome
  rw [h]

lemma takeWhile_all_append {p : Char → Bool} {l : List Char} (r : List Char)
    (h : ∀ x ∈ l, p x = true) : (l ++ r).takeWhile p = l ++ r.takeWhile p := by
  induction l with
  | nil => rfl
  | cons a t ih =>
    rw [List.cons_append, List.takeWhile_cons_of_pos (h a (List.mem_cons_self a t)),
      ih (fun x hx => h x (List.mem_cons_of_mem a hx)), List.cons_append]

lemma takeWhile_all {p : Char → Bool} {l : List Char} (h : ∀ x ∈ l, p x = true) :
    l.takeWhile p = l := by
  induction l with
  | nil => rfl
  | cons a t ih =>
    rw [List.takeWhile_cons_of_pos (h a (List.mem_cons_self a t)),
      ih (fun x hx => h x (List.mem_cons_of_mem a hx))]

lemma takeWhile_head_neg {p : Char → Bool} {r : List Char}
    (h : ∀ c, r.head? = some c → p c = false) : r.takeWhile p = [] := by
  cases r with
  | nil => rfl
  | cons c t => exact List.takeWhile_cons_of_neg (by rw [h c rfl]; simp)

lemma quantCandidates_starGreedy_eq (n : ℕ) :
    quantCandidates .starGreedy n = n :: (List.range n).reverse := by
  simp [quantCandidates, List.range_succ]

lemma quantCandidates_plusGreedy_succ (m : ℕ) :
    quantCandidates .plusGreedy (m + 1) =
      (m + 1) :: ((List.range m).map (· + 1)).reverse := by
  simp [quantCandidates, List.range_succ]

lemma mrun_cls_starGreedy_append {α} {p : Char → Bool} (l r : List Char)
    {acc : List (List Char)} {k : List (List Char) → List Char → Option α} {v : α}
    (hall : ∀ x ∈ l, p x = true)
    (hhd : ∀ c, r.head? = some c → p c = false)
    (hk : k acc r = some v) :
    mrun (.cls p .starGreedy) (l ++ r) acc k = some v := by
  have htw : (l ++ r).takeWhile p = l := by
    rw [takeWhile_all_append r hall, takeWhile_head_neg hhd, List.append_nil]
  show firstSome _ _ = some v
  rw [htw, quantCandidates_starGreedy_eq]
  exact firstSome_head (by rw [List.drop_left]; exact hk)

lemma mrun_cls_plusGreedy_append {α} {p : Char → Bool} (l r : List Char)
    {acc : List (List Char)} {k : List (List Char) → List Char → Option α} {v : α}
    (hall : ∀ x ∈ l, p x = true) (hne : l ≠ [])
    (hhd : ∀ c, r.head? = some c → p c = false)
    (hk : k acc r = some v) :
    mrun (.cls p .plusGreedy) (l ++ r) acc k = some v := by
  have htw : (l ++ r).takeWhile p = l := by
    rw [takeWhile_all_append r hall, takeWhile_head_neg hhd, List.append_nil]
  show firstSome _ _ = some v
  rw [htw]
  obtain ⟨m, hm⟩ : ∃ m, l.length = m + 1 := by
    cases l with
    | nil => exact absurd rfl hne
    | cons a t => exact ⟨t.length, rfl⟩
  rw [hm, quantCandidates_plusGreedy_succ]
  refine firstSome_head ?_
  rw [← hm, List.drop_left]
  exact hk

lemma mrun_grp_eq {α} (r : RE) (s : List Char) (acc : List (List Char))
    (k : List (List Char) → List Char → Option α) :
    mrun (.grp r) s acc k =
      mrun r s acc fun acc' s' => k (acc' ++ [s.take (s.length - s'.length)]) s' := rfl

lemma mrun_seq_eq {α} (a b : RE) (s : List Char) (acc : List (List Char))
    (k : List (List Char) → List Char → Option α) :
    mrun (.seq a b) s acc k = mrun a s acc fun acc' s' => mrun b s' acc' k := rfl

lemma reSearch_of_matchAt {r : RE} {s : List Char} {g : List (List Char)}
    (h : reMatchAt r s = some g) : reSearch r s = some g := by
  cases s with
  | nil => rw [reSearch, h]
  | cons c t =>
    rw [reSearch, h]

lemma take_sub_length (l x : List Char) : (l ++ x).take ((l ++ x).length - x.length) = l := by
  have h : (l ++ x).length - x.length = l.length := by
    simp [List.length_append]
  rw [h, List.take_left]

end Mole

namespace Mole

-- --- C3: parseSizeToBytes ---

lemma mrun_cls_plusGreedy_all {α} {p : Char → Bool} (l : List Char)
    {acc : List (List Char)} {k : List (List Char) → List Char → Option α} {v : α}
    (hall : ∀ x ∈ l, p x = true) (hne : l ≠ [])
    (hk : k acc [] = some v) :
    mrun (.cls p .plusGreedy) l acc k = some v := by
  have h := mrun_cls_plusGreedy_append l [] hall hne (fun c hc => by cases hc) hk
  simpa using h

lemma reSearch_sizeRE (num sps unit : List Char)
    (hn : num ≠ []) (hu : unit ≠ [])
    (h1 : ∀ c ∈ num, isNumDot c = true)
    (h2 : ∀ c ∈ sps, isJsSpace c = true)
    (h3 : ∀ c ∈ unit, c.isAlpha = true) :
    reSearch sizeRE (num ++ sps ++ unit) = some [num, unit] := by
  apply reSearch_of_matchAt
  show mrun sizeRE (num ++ sps ++ unit) [] _ = _
  have hsize : sizeRE = .seq (.grp (.cls isNumDot .plusGreedy))
      (.seq (.cls isJsSpace .starGreedy) (.grp (.cls isWordChar .plusGreedy))) := rfl
  rw [hsize, mrun_seq_eq, mrun_grp_eq, List.append_assoc]
  refine mrun_cls_plusGreedy_append num (sps ++ unit) h1 hn ?_ ?_
  · intro c hc
    cases sps with
    | nil =>
      cases unit with
      | nil => cases hc
      | cons u ut =>
        simp at hc
        rw [← hc]
        exact alpha_isNumDot_false (h3 u (List.mem_cons_self u ut))
    | cons a t =>
      simp at hc
      rw [← hc]
      exact jsSpace_isNumDot_false (h2 a (List.mem_cons_self a t))
  · show mrun _ (sps ++ unit) _ _ = _
    rw [mrun_seq_eq]
    rw [show (num ++ (sps ++ unit)).take ((num ++ (sps ++ unit)).length - (sps ++ unit).length)
        = num from take_sub_length num (sps ++ unit)]
    refine mrun_cls_starGreedy_append sps unit h2 ?_ ?_
    · intro c hc
      cases unit with
      | nil => cases hc
      | cons u ut =>
        simp at hc
        rw [← hc]
        exact alpha_isJsSpace_false (h3 u (List.mem_cons_self u ut))
    · show mrun (.grp (.cls isWordChar .plusGreedy)) unit _ _ = _
      rw [mrun_grp_eq]
      refine mrun_cls_plusGreedy_all unit ?_ hu ?_
      · intro x hx
        exact alpha_isWordChar_true (h3 x hx)
      · show some _ = _
        simp

lemma parseFloatQ_digits (ds : List Char) (h : ds ≠ [])
    (hall : ∀ c ∈ ds, c.isDigit = true) :
    parseFloatQ ds =
      some ((Nat.ofDigits 10 ((ds.map fun c => c.toNat - '0'.toNat).reverse) : ℕ) : ℚ) := by
  unfold parseFloatQ
  have htw : ds.takeWhile Char.isDigit = ds := takeWhile_all hall
  rw [htw]
  rw [if_neg (by simpa [List.isEmpty_iff] using h)]
  rw [List.drop_length]

lemma multipliers_getD (u : List Char) :
    (multipliers u).getD 1 =
      if u ∈ SIZE_UNITS then (1024 : ℚ) ^ SIZE_UNITS.indexOf u else 1 := by
  by_cases h : u ∈ SIZE_UNITS
  · rw [if_pos h]
    rcases (by simpa [SIZE_UNITS] using h :
        u = r"B".toList ∨ u = r"KB".toList ∨ u = r"MB".toList ∨
        u = r"GB".toList ∨ u = r"TB".toList) with h2 | h2 | h2 | h2 | h2 <;>
      subst h2 <;> rfl
  · rw [if_neg h]
    have h5 : ¬(u = r"B".toList) ∧ ¬(u = r"KB".toList) ∧ ¬(u = r"MB".toList) ∧
        ¬(u = r"GB".toList) ∧ ¬(u = r"TB".toList) := by
      simp [SIZE_UNITS] at h
      tauto
    unfold multipliers
    rw [if_neg h5.1, if_neg h5.2.1, if_neg h5.2.2.1, if_neg h5.2.2.2.1,
      if_neg h5.2.2.2.2]
    rfl

/-- C3: `parseSizeToBytes` maps a matched `<number><spaces><unit>` token to
the parsed decimal value times a 1024-based multiplier —
`1024 ^ (index of the uppercased unit in [B, KB, MB, GB, TB])`, matched
case-insensitively via upper-casing — with multiplier 1 for a unit outside
that list, and returns 0 when the string is empty or contains no
number-unit token. -/
theorem C3_parseSizeToBytes_spec :
    (∀ s, reSearch sizeRE s = none → parseSizeToBytes s = some 0) ∧
    (parseSizeToBytes [] = some 0) ∧
    (∀ u, (multipliers u).getD 1 =
      if u ∈ SIZE_UNITS then (1024 : ℚ) ^ SIZE_UNITS.indexOf u else 1) ∧
    (∀ num sps unit, num ≠ [] → unit ≠ [] →
      (∀ c ∈ num, isNumDot c = true) → (∀ c ∈ sps, isJsSpace c = true) →
      (∀ c ∈ unit, c.isAlpha = true) →
      parseSizeToBytes (num ++ sps ++ unit) =
        (parseFloatQ num).map (· * (multipliers (toUpperList unit)).getD 1)) ∧
    (∀ ds, ds ≠ [] → (∀ c ∈ ds, c.isDigit = true) →
      parseFloatQ ds =
        some ((Nat.ofDigits 10 ((ds.map fun c => c.toNat - '0'.toNat).reverse) : ℕ) : ℚ)) := by
  refine ⟨?_, rfl, multipliers_getD, ?_, parseFloatQ_digits⟩
  · intro s h
    unfold parseSizeToBytes
    by_cases he : s.isEmpty
    · rw [if_pos he]
    · rw [if_neg he, h]
  · intro num sps unit hn hu h1 h2 h3
    unfold parseSizeToBytes
    rw [if_neg (by simp [List.isEmpty_iff, hn]), reSearch_sizeRE num sps unit hn hu h1 h2 h3]
    show (match parseFloatQ num with
      | none => (none : Option ℚ)
      | some v => some (v * (multipliers (toUpperList unit)).getD 1)) =
      (parseFloatQ num).map (· * (multipliers (toUpperList unit)).getD 1)
    cases hp : parseFloatQ num <;> rfl

/-- Witness for C3 at `"5 KB"` (and the no-token case `"zz"`). -/
theorem C3_parseSizeToBytes_spec_witness :
    parseSizeToBytes ("5 KB".toList) = some 5120 ∧
    parseSizeToBytes ("zz".toList) = some 0 := by
  constructor
  · have h := C3_parseSizeToBytes_spec.2.2.2.1 ['5'] [' '] ['K', 'B']
      (by decide) (by decide) (by decide) (by decide) (by decide)
    have he : ("5 KB".toList : List Char) = ['5'] ++ [' '] ++ ['K', 'B'] := rfl
    rw [he, h]
    have hd := C3_parseSizeToBytes_spec.2.2.2.2 ['5'] (by decide) (by decide)
    rw [hd]
    simp only [Option.map_some']
    have hm : (multipliers (toUpperList ['K', 'B'])).getD 1 = 1024 := rfl
    rw [hm]
    norm_num [Nat.ofDigits]
    have h5 : ('5'.toNat - '0'.toNat) = 5 := rfl
    rw [h5]
    norm_num
  · exact C3_parseSizeToBytes_spec.1 ("zz".toList) (by decide)

end Mole

namespace Mole

-- --- C4: size round trip ---

lemma formatBytesLoop_eval (n : ℚ) (h1 : 1 ≤ n) (h2 : n < 1024) :
    ∀ (j i fuel : ℕ), j ≤ fuel → i + j ≤ 4 →
      formatBytesLoop (n * 1024 ^ j) i fuel = (n, i + j) := by
  intro j
  induction j with
  | zero =>
    intro i fuel _ _
    cases fuel with
    | zero => simp [formatBytesLoop]
    | succ f =>
      unfold formatBytesLoop
      rw [if_neg]
      · simp
      · rintro ⟨ha, -⟩
        rw [pow_zero, mul_one] at ha
        linarith
  | succ j ih =>
    intro i fuel hjf hij
    cases fuel with
    | zero => omega
    | succ f =>
      unfold formatBytesLoop
      rw [if_pos]
      · have hdiv : n * 1024 ^ (j + 1) / 1024 = n * 1024 ^ j := by
          rw [pow_succ]
          field_simp
          ring
        rw [hdiv, ih (i + 1) f (by omega) (by omega)]
        have hadd : i + 1 + j = i + (j + 1) := by omega
        rw [hadd]
      · constructor
        · have hp : (1024 : ℚ) ^ 1 ≤ 1024 ^ (j + 1) :=
            pow_le_pow_right (by norm_num) (by omega)
          rw [pow_one] at hp
          have hpos : (0 : ℚ) < 1024 ^ (j + 1) := by positivity
          nlinarith
        · omega

/-- C4 counterexample: the size string `"1024 KB"` parses to `1024²` bytes,
which both formatters print as `"1.0 MB"` — the unit class KB is not
reproduced, refuting the universally quantified round-trip claim. -/
theorem C4_counterexample :
    parseSizeToBytes ("1024 KB".toList) = some (1048576 : ℚ) ∧
    formatBytesShort (1048576 : ℚ) = "1.0 MB".toList ∧
    formatBytes (1048576 : ℚ) = "1.0 MB".toList := by
  refine ⟨?_, ?_, ?_⟩
  · have he : ("1024 KB".toList : List Char) = ['1', '0', '2', '4'] ++ [' '] ++ ['K', 'B'] := rfl
    have hsearch := reSearch_sizeRE ['1', '0', '2', '4'] [' '] ['K', 'B']
      (by decide) (by decide) (by decide) (by decide) (by decide)
    unfold parseSizeToBytes
    rw [he]
    rw [if_neg (by decide), hsearch]
    show (match parseFloatQ ['1', '0', '2', '4'] with
      | none => (none : Option ℚ)
      | some v => some (v * (multipliers (toUpperList ['K', 'B'])).getD 1)) = _
    rw [parseFloatQ_digits ['1', '0', '2', '4'] (by decide) (by decide)]
    have hofd : (Nat.ofDigits 10
        ((['1', '0', '2', '4'].map fun c => c.toNat - '0'.toNat).reverse) : ℕ) = 1024 := rfl
    rw [hofd]
    have hm : (multipliers (toUpperList ['K', 'B'])).getD 1 = 1024 := rfl
    rw [hm]
    norm_num
  · unfold formatBytesShort
    rw [if_neg (by norm_num), if_pos (by norm_num)]
    have hdiv : (1048576 : ℚ) / 1024 ^ 2 = 1 := by norm_num
    rw [hdiv]
    unfold toFixedQ
    norm_num
    decide
  · unfold formatBytes
    rw [if_neg (by norm_num)]
    have h1 : (1048576 : ℚ) = 1 * 1024 ^ 2 := by norm_num
    rw [h1, formatBytesLoop_eval 1 le_rfl (by norm_num) 2 0 4 (by omega) (by omega)]
    simp only
    unfold toFixedQ
    norm_num
    decide

/-- C4 (amended): for `1 ≤ n < 1024`, `formatBytesShort (n·1024^k)`
reproduces unit class `k` for `k ≤ 3` (B, KB, MB, GB — it has no TB
branch), printing sub-KB byte counts verbatim, KB with zero decimals and
MB/GB with one decimal; `formatBytes (n·1024^k)` reproduces unit class `k`
for `k ≤ 4` (TB included) but prints every unit above B — KB included —
with one decimal.  Outside `[1, 1024)` the unit class changes (see the
counterexample). -/
theorem C4_roundtrip_amended (n : ℚ) (k : ℕ) (h1 : 1 ≤ n) (h2 : n < 1024) :
    (k ≤ 3 → formatBytesShort (n * 1024 ^ k) =
      (if k = 0 then qRender n else toFixedQ n (if k = 1 then 0 else 1)) ++
        ' ' :: SIZE_UNITS.getD k []) ∧
    (k ≤ 4 → formatBytes (n * 1024 ^ k) =
      toFixedQ n (if k = 0 then 0 else 1) ++ ' ' :: SIZE_UNITS.getD k []) := by
  have hn0 : (0 : ℚ) < n := lt_of_lt_of_le one_pos h1
  constructor
  · intro hk
    unfold formatBytesShort
    interval_cases k
    · rw [if_neg (by nlinarith), if_neg (by nlinarith), if_neg (by nlinarith)]
      rw [pow_zero, mul_one]
      rfl
    · rw [if_neg (by nlinarith), if_neg (by nlinarith), if_pos (by nlinarith)]
      have hdiv : n * 1024 ^ 1 / 1024 = n := by
        field_simp
      rw [hdiv]
      rfl
    · rw [if_neg (by nlinarith), if_pos (by nlinarith)]
      have hdiv : n * 1024 ^ 2 / 1024 ^ 2 = n := by
        field_simp
      rw [hdiv]
      rfl
    · rw [if_pos (by nlinarith)]
      have hdiv : n * 1024 ^ 3 / 1024 ^ 3 = n := by
        field_simp
      rw [hdiv]
      rfl
  · intro hk
    unfold formatBytes
    rw [if_neg (by push_neg; positivity),
      formatBytesLoop_eval n h1 h2 k 0 4 (by omega) (by omega)]
    simp

end Mole

namespace Mole

/-- Witness for C4 (amended) at `n = 3/2`, `k = 2`: `1.5 MB` survives the
round trip in both formatters. -/
theorem C4_roundtrip_amended_witness :
    formatBytesShort ((3 / 2 : ℚ) * 1024 ^ 2) = "1.5 MB".toList ∧
    formatBytes ((3 / 2 : ℚ) * 1024 ^ 2) = "1.5 MB".toList := by
  have h := C4_roundtrip_amended (3 / 2) 2 (by norm_num) (by norm_num)
  have ht : toFixedQ (3 / 2) 1 = "1.5".toList := by
    have hf : (⌊|(3 / 2 : ℚ)| * 10 + 1 / 2⌋ : ℤ) = 15 := by
      rw [abs_of_pos (by norm_num : (0 : ℚ) < 3 / 2)]
      norm_num
    unfold toFixedQ
    norm_num [hf]
    decide
  constructor
  · rw [h.1 (by omega)]
    simp only [if_neg (by omega : ¬(2 = 0)), if_neg (by omega : ¬(2 = 1)), ht]
    rfl
  · rw [h.2 (by omega)]
    simp only [if_neg (by omega : ¬(2 = 0)), ht]
    rfl

end Mole

namespace Mole

-- --- C8: the purge target walker never nests matches ---

/-- `a` is a (not necessarily proper) ancestor-or-equal path of `b`. -/
def pathPrefix (a b : List (List Char)) : Prop := ∃ tail, a ++ tail = b

lemma walkEnts_succ_cons (t : List (List Char)) (m fuel d : ℕ)
    (p : List (List Char)) (e : FsTree) (rest : List FsTree) :
    walkEnts t m (fuel + 1) d p (e :: rest) =
      (match e with
       | .file _ => walkEnts t m (fuel + 1) d p rest
       | .dir name children =>
         if (name.head? = some '.' ∧ name ∉ t) ∨ name = libraryL ∨ name = systemL then
           walkEnts t m (fuel + 1) d p rest
         else if name ∈ t then
           (⟨name, p ++ [name], p.getLastD []⟩ :: (walkEnts t m (fuel + 1) d p rest).1,
            (walkEnts t m (fuel + 1) d p rest).2)
         else if m < d + 1 then walkEnts t m (fuel + 1) d p rest
         else
           ((walkEnts t m fuel (d + 1) (p ++ [name]) children).1 ++
              (walkEnts t m (fuel + 1) d p rest).1,
            ((p ++ [name]) :: (walkEnts t m fuel (d + 1) (p ++ [name]) children).2) ++
              (walkEnts t m (fuel + 1) d p rest).2)) := rfl

lemma walkEnts_results_path (t : List (List Char)) (m : ℕ) :
    ∀ (fuel d : ℕ) (p : List (List Char)) (ents : List FsTree) (r : Pitem),
      r ∈ (walkEnts t m fuel d p ents).1 →
      ∃ mid last, r.path = p ++ mid ++ [last] ∧ last ∈ t ∧ ∀ x ∈ mid, x ∉ t := by
  intro fuel
  induction fuel with
  | zero =>
    intro d p ents r hr
    simp [walkEnts] at hr
  | succ fuel ih =>
    intro d p ents r hr
    induction ents with
    | nil => simp [walkEnts] at hr
    | cons e rest ihr =>
      rw [walkEnts_succ_cons] at hr
      cases e with
      | file nm => exact ihr hr
      | dir name children =>
        dsimp only at hr
        by_cases h1 : (name.head? = some '.' ∧ name ∉ t) ∨ name = libraryL ∨ name = systemL
        · rw [if_pos h1] at hr
          exact ihr hr
        · rw [if_neg h1] at hr
          by_cases h2 : name ∈ t
          · rw [if_pos h2] at hr
            rcases List.mem_cons.mp hr with h3 | h3
            · refine ⟨[], name, ?_, h2, by simp⟩
              rw [h3]
              simp
            · exact ihr h3
          · rw [if_neg h2] at hr
            by_cases h3 : m < d + 1
            · rw [if_pos h3] at hr
              exact ihr hr
            · rw [if_neg h3] at hr
              rcases List.mem_append.mp hr with h4 | h4
              · obtain ⟨mid, last, hp, hl, hm⟩ := ih (d + 1) (p ++ [name]) children r h4
                refine ⟨name :: mid, last, ?_, hl, ?_⟩
                · rw [hp]
                  simp
                · intro x hx
                  rcases List.mem_cons.mp hx with h5 | h5
                  · rw [h5]
                    exact h2
                  · exact hm x h5
              · exact ihr h4

lemma findPurge_results_path {t : List (List Char)} {m : ℕ}
    {p : List (List Char)} {root : FsTree} {r : Pitem}
    (hr : r ∈ (findPurgeTargetsNative t m p root).1) :
    ∃ mid last, r.path = p ++ mid ++ [last] ∧ last ∈ t ∧ ∀ x ∈ mid, x ∉ t := by
  cases root with
  | file nm => simp [findPurgeTargetsNative] at hr
  | dir nm children =>
    unfold findPurgeTargetsNative at hr
    dsimp only at hr
    by_cases h : m < 1
    · rw [if_pos h] at hr
      simp at hr
    · rw [if_neg h] at hr
      exact walkEnts_results_path t m (m + 1) 1 p children r hr

/-- C8: no discovered purge target is nested inside another discovered
target (a matched directory is recorded and never descended into), and on
the concrete tree `home/project/node_modules/sub/node_modules` only the
outer `node_modules` is reported while the inner one — and the inside of
the outer one — is never read by the walk. -/
theorem C8_no_nested_targets :
    (∀ (targets : List (List Char)) (maxDepth : ℕ) (rootPath : List (List Char))
       (root : FsTree) (a b : Pitem),
       a ∈ (findPurgeTargetsNative targets maxDepth rootPath root).1 →
       b ∈ (findPurgeTargetsNative targets maxDepth rootPath root).1 →
       a.path ≠ b.path → ¬ pathPrefix a.path b.path) ∧
    ((findPurgeTargetsNative [r"node_modules".toList] 4 [r"home".toList]
        (.dir (r"home".toList)
          [.dir (r"project".toList)
            [.dir (r"node_modules".toList)
              [.dir (r"sub".toList) [.dir (r"node_modules".toList) []]]]])).1 =
      [⟨r"node_modules".toList, [r"home".toList, r"project".toList, r"node_modules".toList],
        r"project".toList⟩] ∧
     (findPurgeTargetsNative [r"node_modules".toList] 4 [r"home".toList]
        (.dir (r"home".toList)
          [.dir (r"project".toList)
            [.dir (r"node_modules".toList)
              [.dir (r"sub".toList) [.dir (r"node_modules".toList) []]]]])).2 =
      [[r"home".toList], [r"home".toList, r"project".toList]]) := by
  constructor
  · intro targets maxDepth rootPath root a b ha hb hne hpfx
    obtain ⟨m1, t1, hp1, ht1, hm1⟩ := findPurge_results_path ha
    obtain ⟨m2, t2, hp2, ht2, hm2⟩ := findPurge_results_path hb
    obtain ⟨tl, htl⟩ := hpfx
    rcases List.eq_nil_or_concat tl with rfl | ⟨tl', x, rfl⟩
    · rw [List.append_nil] at htl
      exact hne htl
    · rw [hp1, hp2, List.concat_eq_append] at htl
      have hc := htl
      simp only [List.append_assoc] at hc
      have hc2 : m1 ++ ([t1] ++ (tl' ++ [x])) = m2 ++ [t2] :=
        List.append_cancel_left hc
      have hc3 : (m1 ++ [t1] ++ tl') ++ [x] = m2 ++ [t2] := by
        rw [← hc2]
        simp [List.append_assoc]
      have hc4 : m1 ++ [t1] ++ tl' = m2 ∧ ([x] : List (List Char)) = [t2] :=
        List.append_inj' hc3 rfl
      have ht1mem : t1 ∈ m2 := by
        rw [← hc4.1]
        simp
      exact hm2 t1 ht1mem ht1
  · constructor
    · decide
    · decide

/-- Witness for C8 on a tree with two sibling targets: neither reported
path is an ancestor of the other. -/
theorem C8_no_nested_targets_witness :
    ¬ pathPrefix [r"home".toList, r"p1".toList, r"node_modules".toList]
        [r"home".toList, r"p2".toList, r"node_modules".toList] := by
  refine C8_no_nested_targets.1 [r"node_modules".toList] 4 [r"home".toList]
    (.dir (r"home".toList)
      [.dir (r"p1".toList) [.dir (r"node_modules".toList) []],
       .dir (r"p2".toList) [.dir (r"node_modules".toList) []]])
    ⟨r"node_modules".toList, [r"home".toList, r"p1".toList, r"node_modules".toList],
      r"p1".toList⟩
    ⟨r"node_modules".toList, [r"home".toList, r"p2".toList, r"node_modules".toList],
      r"p2".toList⟩
    (by decide) (by decide) (by decide)

end Mole

namespace Mole

-- --- Shared structure lemmas for the streaming clean machine ---

lemma finalize_name (c : CleanCatM) : (finalizeCategorySize c).name = c.name := by
  unfold finalizeCategorySize
  dsimp only
  split <;> rfl

lemma finalize_tok (c : CleanCatM) : (finalizeCategorySize c).tok = c.tok := by
  unfold finalizeCategorySize
  dsimp only
  split <;> rfl

lemma finalize_items (c : CleanCatM) : (finalizeCategorySize c).items = c.items := by
  unfold finalizeCategorySize
  dsimp only
  split <;> rfl

/-- `finalizeCategorySize` leaves a category with no items untouched. -/
lemma finalize_of_items_nil (c : CleanCatM) (h : c.items = []) :
    finalizeCategorySize c = c := by
  unfold finalizeCategorySize
  dsimp only
  rw [if_pos]
  rw [h]
  rfl

/-- Closing the open category (if any) and opening a fresh one named
`name` — the header transition of `runDryRun`. -/
def pushOpen (st : UIState) (tok : ℕ) (name : List Char) : UIState :=
  match st.currentCategory with
  | some c =>
    { st with categoriesRef := st.categoriesRef ++ [finalizeCategorySize c],
              categories := st.categoriesRef ++ [finalizeCategorySize c],
              currentCategory := some ⟨name, [], [], tok⟩,
              scanStatus := scanPrefixL ++ name ++ ellipsisL }
  | none =>
    { st with currentCategory := some ⟨name, [], [], tok⟩,
              scanStatus := scanPrefixL ++ name ++ ellipsisL }

/-- The header name a stripped line yields in the `runDryRun` machine
(`none` for non-header lines; summary lines take precedence). -/
def strippedHeaderNameM (s : List Char) : Option (List Char) :=
  if s.isEmpty then none
  else
    match reSearch summaryRE s with
    | some _ => none
    | none =>
      if s.head? = some '➤' then some (jsTrim (replaceGlyphPrefix ['➤'] s))
      else none

def lineHeaderNameM (line : List Char) : Option (List Char) :=
  strippedHeaderNameM (jsTrim (stripAnsi line))

/-- Every transition of the line callback is one of five shapes: a no-op, a
summary update, a header push-and-open, an item append to the open
category, or a progress-status update. -/
lemma applyCleanStripped_shape (st : UIState) (tok : ℕ) (s : List Char) :
    (applyCleanStripped st tok s = st ∧ strippedHeaderNameM s = none) ∨
    (∃ g1 g2 g3, applyCleanStripped st tok s = { st with summary := some ⟨g1, g2, g3, tok⟩ } ∧
      strippedHeaderNameM s = none) ∨
    (∃ name, strippedHeaderNameM s = some name ∧
      applyCleanStripped st tok s = pushOpen st tok name) ∨
    (∃ c c', st.currentCategory = some c ∧ c'.name = c.name ∧ c'.tok = c.tok ∧
      c'.items ≠ [] ∧ strippedHeaderNameM s = none ∧
      applyCleanStripped st tok s =
        { st with currentCategory := some c', categories := st.categoriesRef ++ [c'] }) ∨
    (∃ x, applyCleanStripped st tok s = { st with scanStatus := x } ∧
      strippedHeaderNameM s = none) := by
  unfold applyCleanStripped strippedHeaderNameM
  by_cases he : s.isEmpty
  · left
    rw [if_pos he, if_pos he]
    exact ⟨rfl, rfl⟩
  · rw [if_neg he, if_neg he]
    cases hsum : reSearch summaryRE s with
    | some g =>
      right; left
      exact ⟨g.getD 0 [], g.getD 1 [], g.getD 2 [], rfl, rfl⟩
    | none =>
      dsimp only
      by_cases hh : s.head? = some '➤'
      · right; right; left
        rw [if_pos hh, if_pos hh]
        refine ⟨jsTrim (replaceGlyphPrefix ['➤'] s), rfl, ?_⟩
        unfold pushOpen
        cases hcur : st.currentCategory <;> rfl
      · rw [if_neg hh, if_neg hh]
        cases hcur : st.currentCategory with
        | none => exact Or.inl ⟨rfl, rfl⟩
        | some c =>
          cases hm1 : reMatchAt (dryItemRE '→') s with
          | some g =>
            right; right; right; left
            exact ⟨c, finalizeCategorySize { c with items := c.items ++ [⟨g.getD 0 [], g.getD 1 []⟩] },
              rfl, finalize_name _, finalize_tok _,
              by rw [finalize_items]; simp, rfl, rfl⟩
          | none =>
            cases hm2 : reMatchAt wouldRE s with
            | some g =>
              right; right; right; left
              exact ⟨c, { c with items :=
                  c.items ++ [⟨g.getD 0 [] ++ wouldOpenL ++ g.getD 1 [] ++ [')'], []⟩] },
                rfl, rfl, rfl, by simp, rfl, rfl⟩
            | none =>
              cases hm3 : reMatchAt simpleItemRE s with
              | some g =>
                dsimp only
                by_cases hsl : (g.getD 0 []).head? = some '/'
                · rw [if_pos hsl]
                  by_cases hdot : s.head? = some '•'
                  · right; right; right; right
                    rw [if_pos hdot]
                    exact ⟨replaceGlyphPrefix ['•'] s, rfl, rfl⟩
                  · left
                    rw [if_neg hdot]
                    exact ⟨rfl, rfl⟩
                · rw [if_neg hsl]
                  right; right; right; left
                  exact ⟨c, { c with items := c.items ++ [⟨g.getD 0 [], []⟩] },
                    rfl, rfl, rfl, by simp, rfl, rfl⟩
              | none =>
                dsimp only
                by_cases hdot : s.head? = some '•'
                · right; right; right; right
                  rw [if_pos hdot]
                  exact ⟨replaceGlyphPrefix ['•'] s, rfl, rfl⟩
                · left
                  rw [if_neg hdot]
                  exact ⟨rfl, rfl⟩

end Mole

namespace Mole

def optM : Option CleanCatM → List (List Char)
  | some c => [c.name]
  | none => []

/-- A category whose items list is empty has an unset total. -/
def catM_ok (c : CleanCatM) : Prop := c.items = [] → c.totalSize = []

/-- Before the first header, nothing has been rendered or committed. -/
def curNoneInv (st : UIState) : Prop :=
  st.currentCategory = none → st.categoriesRef = [] ∧ st.categories = []

def okInv (st : UIState) : Prop :=
  (∀ c ∈ st.categoriesRef, catM_ok c) ∧
  (∀ c, st.currentCategory = some c → catM_ok c) ∧
  (∀ c ∈ st.categories, catM_ok c)

/-- Every record reachable in the UI state carries the current scan token. -/
def toksInv (st : UIState) : Prop :=
  (∀ c ∈ st.categories, c.tok = st.scanId) ∧
  (∀ c ∈ st.categoriesRef, c.tok = st.scanId) ∧
  (∀ c, st.currentCategory = some c → c.tok = st.scanId) ∧
  (∀ su, st.summary = some su → su.tok = st.scanId) ∧
  (∀ m t, st.error = some (m, t) → t = st.scanId)

lemma finalize_ok (c : CleanCatM) (h : catM_ok c) : catM_ok (finalizeCategorySize c) := by
  intro hi
  rw [finalize_items] at hi
  rw [finalize_of_items_nil c hi]
  exact h hi

lemma applyCleanStripped_facts (st : UIState) (tok : ℕ) (s : List Char) :
    (applyCleanStripped st tok s).scanId = st.scanId ∧
    ((applyCleanStripped st tok s).categoriesRef.map (·.name) ++
        optM (applyCleanStripped st tok s).currentCategory =
      (st.categoriesRef.map (·.name) ++ optM st.currentCategory) ++
        (strippedHeaderNameM s).toList) ∧
    (curNoneInv st → curNoneInv (applyCleanStripped st tok s)) ∧
    (okInv st → okInv (applyCleanStripped st tok s)) ∧
    (tok = st.scanId → toksInv st → toksInv (applyCleanStripped st tok s)) := by
  rcases applyCleanStripped_shape st tok s with
    ⟨h1, h2⟩ | ⟨g1, g2, g3, h1, h2⟩ | ⟨name, h2, h1⟩ |
    ⟨c, c', hcur, hname, htok, hitems, h2, h1⟩ | ⟨x, h1, h2⟩
  · rw [h1, h2]
    simp
  · rw [h1, h2]
    refine ⟨rfl, by simp, fun h => h, fun h => h, ?_⟩
    rintro htk ⟨t1, t2, t3, t4, t5⟩
    refine ⟨t1, t2, t3, ?_, t5⟩
    intro su hsu
    rw [← Option.some.inj hsu]
    exact htk
  · rw [h1, h2]
    unfold pushOpen
    cases hcur : st.currentCategory with
    | some c =>
      refine ⟨rfl, ?_, ?_, ?_, ?_⟩
      · simp [optM, finalize_name]
      · intro _ h
        cases h
      · rintro ⟨k1, k2, k3⟩
        refine ⟨?_, ?_, ?_⟩
        · intro d hd
          rcases List.mem_append.mp hd with h | h
          · exact k1 d h
          · rw [List.mem_singleton.mp h]
            exact finalize_ok c (k2 c hcur)
        · intro d hd
          rw [← Option.some.inj hd]
          intro hi
          rfl
        · intro d hd
          rcases List.mem_append.mp hd with h | h
          · exact k1 d h
          · rw [List.mem_singleton.mp h]
            exact finalize_ok c (k2 c hcur)
      · rintro rfl ⟨t1, t2, t3, t4, t5⟩
        refine ⟨?_, ?_, ?_, t4, t5⟩
        · intro d hd
          rcases List.mem_append.mp hd with h | h
          · exact t2 d h
          · rw [List.mem_singleton.mp h, finalize_tok]
            exact t3 c hcur
        · intro d hd
          rcases List.mem_append.mp hd with h | h
          · exact t2 d h
          · rw [List.mem_singleton.mp h, finalize_tok]
            exact t3 c hcur
        · intro d hd
          rw [← Option.some.inj hd]
    | none =>
      refine ⟨rfl, by simp [optM], ?_, ?_, ?_⟩
      · intro _ h
        cases h
      · rintro ⟨k1, k2, k3⟩
        refine ⟨k1, ?_, k3⟩
        intro d hd
        rw [← Option.some.inj hd]
        intro hi
        rfl
      · rintro rfl ⟨t1, t2, t3, t4, t5⟩
        refine ⟨t1, t2, ?_, t4, t5⟩
        intro d hd
        rw [← Option.some.inj hd]
  · rw [h1, h2]
    refine ⟨rfl, ?_, ?_, ?_, ?_⟩
    · simp [optM, hcur, hname]
    · intro _ h
      cases h
    · rintro ⟨k1, k2, k3⟩
      refine ⟨k1, ?_, ?_⟩
      · intro d hd
        rw [← Option.some.inj hd]
        intro hi
        exact absurd hi hitems
      · intro d hd
        rcases List.mem_append.mp hd with h | h
        · exact k1 d h
        · rw [List.mem_singleton.mp h]
          intro hi
          exact absurd hi hitems
    · rintro rfl ⟨t1, t2, t3, t4, t5⟩
      refine ⟨?_, t2, ?_, t4, t5⟩
      · intro d hd
        rcases List.mem_append.mp hd with h | h
        · exact t2 d h
        · rw [List.mem_singleton.mp h, htok]
          exact t3 c hcur
      · intro d hd
        rw [← Option.some.inj hd, htok]
        exact t3 c hcur
  · rw [h1, h2]
    refine ⟨rfl, by simp, fun h => h, fun h => h, fun _ h => h⟩

end Mole

namespace Mole

lemma cleanStep_stale (st : UIState) (tok : ℕ) (l msg : List Char) (h : tok ≠ st.scanId) :
    cleanStep st (.line tok l) = st ∧ cleanStep st (.commitFinal tok) = st ∧
    cleanStep st (.setError tok msg) = st ∧ cleanStep st (.resetLoading tok) = st := by
  refine ⟨?_, ?_, ?_, ?_⟩ <;> simp [cleanStep, h]

lemma cleanStep_toks (st : UIState) (e : CleanEv) (h : toksInv st) :
    toksInv (cleanStep st e) := by
  cases e with
  | start =>
    refine ⟨?_, ?_, ?_, ?_, ?_⟩ <;> simp [cleanStep]
  | line tok s =>
    show toksInv (if tok = st.scanId then applyCleanLine st tok s else st)
    by_cases ht : tok = st.scanId
    · rw [if_pos ht]
      exact (applyCleanStripped_facts st tok (jsTrim (stripAnsi s))).2.2.2.2 ht h
    · rw [if_neg ht]
      exact h
  | commitFinal tok =>
    show toksInv (if tok = st.scanId then _ else st)
    by_cases ht : tok = st.scanId
    · rw [if_pos ht]
      cases hcur : st.currentCategory with
      | none => exact h
      | some c =>
        obtain ⟨t1, t2, t3, t4, t5⟩ := h
        have hc : c.tok = st.scanId := t3 c hcur
        refine ⟨?_, ?_, ?_, t4, t5⟩
        · intro d hd
          rcases List.mem_append.mp hd with h2 | h2
          · exact t2 d h2
          · rw [List.mem_singleton.mp h2, finalize_tok]
            exact hc
        · intro d hd
          rcases List.mem_append.mp hd with h2 | h2
          · exact t2 d h2
          · rw [List.mem_singleton.mp h2, finalize_tok]
            exact hc
        · intro d hd
          rw [← Option.some.inj hd, finalize_tok]
          exact hc
    · rw [if_neg ht]
      exact h
  | setError tok msg =>
    show toksInv (if tok = st.scanId then _ else st)
    by_cases ht : tok = st.scanId
    · rw [if_pos ht]
      obtain ⟨t1, t2, t3, t4, t5⟩ := h
      refine ⟨t1, t2, t3, t4, ?_⟩
      intro m t hmt
      have := Prod.mk.injEq .. ▸ Option.some.inj hmt
      rw [← (Prod.mk.inj (Option.some.inj hmt)).2]
      exact ht
    · rw [if_neg ht]
      exact h
  | resetLoading tok =>
    show toksInv (if tok = st.scanId then _ else st)
    by_cases ht : tok = st.scanId
    · rw [if_pos ht]
      exact h
    · rw [if_neg ht]
      exact h

lemma cleanStep_scanId_mono (st : UIState) (e : CleanEv) :
    st.scanId ≤ (cleanStep st e).scanId := by
  cases e with
  | start => simp [cleanStep]
  | line tok s =>
    show st.scanId ≤ (if tok = st.scanId then applyCleanLine st tok s else st).scanId
    by_cases ht : tok = st.scanId
    · rw [if_pos ht, applyCleanLine, (applyCleanStripped_facts st tok (jsTrim (stripAnsi s))).1]
    · rw [if_neg ht]
  | commitFinal tok =>
    show st.scanId ≤ (if tok = st.scanId then _ else st).scanId
    by_cases ht : tok = st.scanId
    · rw [if_pos ht]
      cases hcur : st.currentCategory <;> simp
    · rw [if_neg ht]
  | setError tok msg =>
    show st.scanId ≤ (if tok = st.scanId then _ else st).scanId
    by_cases ht : tok = st.scanId
    · rw [if_pos ht]
    · rw [if_neg ht]
  | resetLoading tok =>
    show st.scanId ≤ (if tok = st.scanId then _ else st).scanId
    by_cases ht : tok = st.scanId
    · rw [if_pos ht]
    · rw [if_neg ht]

lemma foldl_cleanStep_toks (evs : List CleanEv) :
    ∀ st, toksInv st → toksInv (evs.foldl cleanStep st) := by
  induction evs with
  | nil => exact fun st h => h
  | cons e rest ih =>
    intro st h
    rw [List.foldl_cons]
    exact ih _ (cleanStep_toks st e h)

/-- C2: once a newer scan has issued a larger token, callbacks of the older
scan never mutate UI state — every line callback, the final category
commit, the error assignment and the loading reset are no-ops under a
stale token — scan tokens only grow, and after any event sequence every
record in UI state (categories shown and accumulated, the open category,
the summary and the error) carries the latest issued scan token, so no
record produced under a stale token is present in final UI state. -/
theorem C2_stale_scan_guard :
    (∀ evs, toksInv (cleanRun evs)) ∧
    (∀ (st : UIState) (tok : ℕ) (l msg : List Char), tok ≠ st.scanId →
      cleanStep st (.line tok l) = st ∧ cleanStep st (.commitFinal tok) = st ∧
      cleanStep st (.setError tok msg) = st ∧ cleanStep st (.resetLoading tok) = st) ∧
    (∀ (st : UIState) (e : CleanEv), st.scanId ≤ (cleanStep st e).scanId) := by
  refine ⟨?_, cleanStep_stale, cleanStep_scanId_mono⟩
  intro evs
  refine foldl_cleanStep_toks evs initUIState ?_
  refine ⟨?_, ?_, ?_, ?_, ?_⟩ <;> simp [initUIState]

/-- Witness for C2: a stale line callback (token 5 against current token 1)
is a no-op, and the state after one scan start satisfies the token
invariant. -/
theorem C2_stale_scan_guard_witness :
    cleanStep (cleanRun [.start]) (.line 5 ['a']) = cleanRun [.start] ∧
    toksInv (cleanRun [.start]) :=
  ⟨(C2_stale_scan_guard.2.1 (cleanRun [.start]) 5 ['a'] [] (by decide)).1,
   C2_stale_scan_guard.1 [.start]⟩

end Mole

namespace Mole

lemma foldM_lines (lines : List (List Char)) :
    ∀ st : UIState, st.scanId = 1 →
      (lines.foldl (fun a l => cleanStep a (.line 1 l)) st).scanId = 1 ∧
      ((lines.foldl (fun a l => cleanStep a (.line 1 l)) st).categoriesRef.map (·.name) ++
          optM (lines.foldl (fun a l => cleanStep a (.line 1 l)) st).currentCategory =
        (st.categoriesRef.map (·.name) ++ optM st.currentCategory) ++
          lines.filterMap lineHeaderNameM) ∧
      (curNoneInv st → curNoneInv (lines.foldl (fun a l => cleanStep a (.line 1 l)) st)) ∧
      (okInv st → okInv (lines.foldl (fun a l => cleanStep a (.line 1 l)) st)) := by
  induction lines with
  | nil =>
    intro st h
    simp [h]
  | cons l rest ih =>
    intro st h
    have hstep : cleanStep st (.line 1 l) = applyCleanStripped st 1 (jsTrim (stripAnsi l)) := by
      show (if 1 = st.scanId then applyCleanLine st 1 l else st) = _
      rw [if_pos h.symm]
      rfl
    have hf := applyCleanStripped_facts st 1 (jsTrim (stripAnsi l))
    rw [List.foldl_cons, hstep]
    obtain ⟨ih1, ih2, ih3, ih4⟩ := ih (applyCleanStripped st 1 (jsTrim (stripAnsi l)))
      (by rw [hf.1, h])
    refine ⟨ih1, ?_, fun hc => ih3 (hf.2.2.1 hc), fun ho => ih4 (hf.2.2.2.1 ho)⟩
    rw [ih2, hf.2.1]
    show _ ++ (lineHeaderNameM l).toList ++ _ = _
    cases hl : lineHeaderNameM l <;>
      simp [hl, List.filterMap_cons, List.append_assoc]

lemma resetLoading_categories (st : UIState) (tok : ℕ) :
    (cleanStep st (.resetLoading tok)).categories = st.categories ∧
    (cleanStep st (.resetLoading tok)).scanId = st.scanId := by
  show ((if tok = st.scanId then _ else st).categories = _ ∧
    (if tok = st.scanId then _ else st).scanId = _)
  by_cases ht : tok = st.scanId
  · rw [if_pos ht]
    exact ⟨rfl, rfl⟩
  · rw [if_neg ht]
    exact ⟨rfl, rfl⟩

lemma runCleanScan_eval (lines : List (List Char)) :
    (runCleanScan lines).categories.map (·.name) = lines.filterMap lineHeaderNameM ∧
    (∀ c ∈ (runCleanScan lines).categories, catM_ok c) := by
  unfold runCleanScan cleanRun
  rw [List.foldl_cons, List.foldl_append, List.foldl_map]
  have hS0 : (cleanStep initUIState .start).scanId = 1 := rfl
  obtain ⟨h1, h2, h3, h4⟩ := foldM_lines lines (cleanStep initUIState .start) hS0
  set mid := lines.foldl (fun a l => cleanStep a (.line 1 l)) (cleanStep initUIState .start)
    with hmid
  have hnames : mid.categoriesRef.map (·.name) ++ optM mid.currentCategory =
      lines.filterMap lineHeaderNameM := by
    rw [h2]
    rfl
  have hcn : curNoneInv mid := h3 (by intro _; exact ⟨rfl, rfl⟩)
  have hok : okInv mid := by
    refine h4 ⟨?_, ?_, ?_⟩ <;> simp [cleanStep, initUIState]
  show ((cleanStep (cleanStep mid (.commitFinal 1)) (.resetLoading 1)).categories.map (·.name) =
      _ ∧ _)
  rw [List.foldl_cons, List.foldl_cons, List.foldl_nil]
  rw [(resetLoading_categories (cleanStep mid (.commitFinal 1)) 1).1]
  have hcommit : cleanStep mid (.commitFinal 1) =
      (match mid.currentCategory with
       | some c =>
         { mid with categoriesRef := mid.categoriesRef ++ [finalizeCategorySize c],
                    categories := mid.categoriesRef ++ [finalizeCategorySize c],
                    currentCategory := some (finalizeCategorySize c) }
       | none => mid) := by
    show (if 1 = mid.scanId then _ else mid) = _
    rw [if_pos h1.symm]
  rw [hcommit]
  cases hcur : mid.currentCategory with
  | none =>
    obtain ⟨href, hcats⟩ := hcn hcur
    rw [hcats]
    constructor
    · rw [← hnames, hcur, href]
      rfl
    · intro c hc
      cases hc
  | some c =>
    constructor
    · show (mid.categoriesRef ++ [finalizeCategorySize c]).map (·.name) = _
      rw [← hnames, hcur]
      simp [optM, finalize_name]
    · show ∀ d ∈ mid.categoriesRef ++ [finalizeCategorySize c], catM_ok d
      intro d hd
      rcases List.mem_append.mp hd with h5 | h5
      · exact hok.1 d h5
      · rw [List.mem_singleton.mp h5]
        exact finalize_ok c (hok.2.1 c hcur)

end Mole

namespace Mole

-- --- parseDryRunOutput structure (utils.ts side) ---

def optNamesU : Option CleanCategoryU → List (List Char)
  | some c => [c.name]
  | none => []

/-- A category with no item lines has an unset total or the `"0 B"` set by
a "Nothing to clean" marker. -/
def catU_ok (c : CleanCategoryU) : Prop := c.items = [] → c.size = [] ∨ c.size = zeroBL

/-- The header name a stripped line yields in `parseDryRunOutput`. -/
def strippedHeaderNameU (s : List Char) : Option (List Char) :=
  if s.head? = some '▶' ∨ s.head? = some '→' then
    some (jsTrim (replaceGlyphPrefix ['▶', '→'] s))
  else none

def lineHeaderNameU (line : List Char) : Option (List Char) :=
  strippedHeaderNameU (jsTrim (stripAnsi line))

lemma head?_none_of_isEmpty {s : List Char} (h : s.isEmpty = true) : s.head? = none := by
  cases s with
  | nil => rfl
  | cons a t => simp at h

lemma processStrippedU_shape (st : List CleanCategoryU × Option CleanCategoryU)
    (s : List Char) :
    (processStrippedU st s = st ∧ strippedHeaderNameU s = none) ∨
    (∃ name, strippedHeaderNameU s = some name ∧
      processStrippedU st s = (st.1 ++ st.2.toList, some ⟨name, [], true, []⟩)) ∨
    (∃ c c', st.2 = some c ∧ c'.name = c.name ∧
      (c'.items ≠ [] ∨ (c'.items = c.items ∧ c'.size = zeroBL)) ∧
      strippedHeaderNameU s = none ∧ processStrippedU st s = (st.1, some c')) := by
  unfold processStrippedU strippedHeaderNameU
  by_cases he : s.isEmpty
  · left
    rw [if_pos he, if_neg (by simp [head?_none_of_isEmpty he])]
    exact ⟨rfl, rfl⟩
  · rw [if_neg he]
    by_cases hh : s.head? = some '▶' ∨ s.head? = some '→'
    · right; left
      rw [if_pos hh, if_pos hh]
      refine ⟨jsTrim (replaceGlyphPrefix ['▶', '→'] s), rfl, ?_⟩
      cases hcur : st.2 <;> simp
    · rw [if_neg hh, if_neg hh]
      cases hcur : st.2 with
      | none => exact Or.inl ⟨rfl, rfl⟩
      | some c =>
        dsimp only
        cases hm1 : reMatchAt (dryItemRE '⊘') s with
        | some g =>
          right; right
          exact ⟨c, { c with items := c.items ++ [g.getD 0 []], size := g.getD 1 [] },
            rfl, rfl, Or.inl (by simp), rfl, rfl⟩
        | none =>
          cases hm2 : reMatchAt successItemRE s with
          | some g =>
            right; right
            exact ⟨c, { c with items := c.items ++ [g.getD 0 []], size := g.getD 1 [] },
              rfl, rfl, Or.inl (by simp), rfl, rfl⟩
          | none =>
            dsimp only
            by_cases hn : listIncludes nothingToCleanL s
            · rw [if_pos hn]
              right; right
              exact ⟨c, { c with size := zeroBL }, rfl, rfl, Or.inr ⟨rfl, rfl⟩, rfl, rfl⟩
            · rw [if_neg hn]
              exact Or.inl ⟨rfl, rfl⟩

lemma processStrippedU_facts (st : List CleanCategoryU × Option CleanCategoryU)
    (s : List Char) :
    ((processStrippedU st s).1.map (·.name) ++ optNamesU (processStrippedU st s).2 =
      (st.1.map (·.name) ++ optNamesU st.2) ++ (strippedHeaderNameU s).toList) ∧
    (((∀ c ∈ st.1, catU_ok c) ∧ (∀ c, st.2 = some c → catU_ok c)) →
      ((∀ c ∈ (processStrippedU st s).1, catU_ok c) ∧
       (∀ c, (processStrippedU st s).2 = some c → catU_ok c))) := by
  rcases processStrippedU_shape st s with
    ⟨h1, h2⟩ | ⟨name, h2, h1⟩ | ⟨c, c', hcur, hname, hok, h2, h1⟩
  · rw [h1, h2]
    simp
  · rw [h1, h2]
    constructor
    · cases hcur : st.2 <;> simp [hcur, optNamesU]
    · rintro ⟨k1, k2⟩
      refine ⟨?_, ?_⟩
      · intro d hd
        rcases List.mem_append.mp hd with h | h
        · exact k1 d h
        · cases hcur : st.2 with
          | none => rw [hcur] at h; cases h
          | some e =>
            rw [hcur] at h
            simp only [Option.toList_some, List.mem_singleton] at h
            rw [h]
            exact k2 e hcur
      · intro d hd
        rw [← Option.some.inj hd]
        intro _
        exact Or.inl rfl
  · rw [h1, h2]
    constructor
    · simp [optNamesU, hcur, hname]
    · rintro ⟨k1, k2⟩
      refine ⟨k1, ?_⟩
      intro d hd
      rw [← Option.some.inj hd]
      intro hi
      rcases hok with h | ⟨hit, hsz⟩
      · exact absurd hi h
      · rw [hsz]
        exact Or.inr rfl

lemma foldU_facts (lines : List (List Char)) :
    ∀ st : List CleanCategoryU × Option CleanCategoryU,
      ((lines.foldl processLineU st).1.map (·.name) ++
          optNamesU (lines.foldl processLineU st).2 =
        (st.1.map (·.name) ++ optNamesU st.2) ++ lines.filterMap lineHeaderNameU) ∧
      (((∀ c ∈ st.1, catU_ok c) ∧ (∀ c, st.2 = some c → catU_ok c)) →
        ((∀ c ∈ (lines.foldl processLineU st).1, catU_ok c) ∧
         (∀ c, (lines.foldl processLineU st).2 = some c → catU_ok c))) := by
  induction lines with
  | nil =>
    intro st
    simp
  | cons l rest ih =>
    intro st
    rw [List.foldl_cons]
    have hstep : processLineU st l = processStrippedU st (jsTrim (stripAnsi l)) := rfl
    have hf := processStrippedU_facts st (jsTrim (stripAnsi l))
    obtain ⟨ih1, ih2⟩ := ih (processLineU st l)
    constructor
    · rw [ih1, hstep, hf.1]
      show _ ++ (lineHeaderNameU l).toList ++ _ = _
      cases hl : lineHeaderNameU l <;>
        simp [hl, List.filterMap_cons, List.append_assoc]
    · intro h
      exact ih2 (hstep ▸ hf.2 h)

end Mole

namespace Mole

lemma map_filter_names (cats : List CleanCategoryU) :
    (cats.filter fun c => !c.name.isEmpty).map (·.name) =
      (cats.map (·.name)).filter (fun n => !n.isEmpty) := by
  induction cats with
  | nil => rfl
  | cons c rest ih =>
    simp only [List.filter_cons, List.map_cons]
    by_cases h : (!c.name.isEmpty) = true
    · rw [if_pos h, if_pos h]
      simp only [List.map_cons, ih]
    · rw [if_neg h, if_neg h]
      exact ih

lemma parseDryRun_eval (output : List Char) :
    (parseDryRunOutput output).map (·.name) =
      ((splitNl output).filterMap lineHeaderNameU).filter (fun n => !n.isEmpty) ∧
    (∀ c ∈ parseDryRunOutput output, catU_ok c) := by
  obtain ⟨h1, h2⟩ := foldU_facts (splitNl output) ([], none)
  simp only [List.map_nil, List.nil_append, optNamesU] at h1
  obtain ⟨k1, k2⟩ := h2 ⟨fun c hc => absurd hc (List.not_mem_nil c), fun c hc => nomatch hc⟩
  have hpd : parseDryRunOutput output =
      (((splitNl output).foldl processLineU ([], none)).1 ++
        ((splitNl output).foldl processLineU ([], none)).2.toList).filter
        (fun c => !c.name.isEmpty) := by
    unfold parseDryRunOutput
    cases hc : ((splitNl output).foldl processLineU ([], none)).2 <;> simp [hc]
  constructor
  · rw [hpd, map_filter_names, List.map_append]
    congr 1
    rw [← h1]
    congr 1
    cases hc : ((splitNl output).foldl processLineU ([], none)).2 <;> simp [hc, optNamesU]
  · intro c hc
    rw [hpd] at hc
    have hm := List.mem_of_mem_filter hc
    rcases List.mem_append.mp hm with h | h
    · exact k1 c h
    · cases hc2 : ((splitNl output).foldl processLineU ([], none)).2 with
      | none => rw [hc2] at h; cases h
      | some e =>
        rw [hc2] at h
        simp only [Option.toList_some, List.mem_singleton] at h
        rw [h]
        exact k2 e hc2

/-- C1 counterexample: the output consisting of the single header line `"▶"`
(empty derived name) contains one section-header line, yet
`parseDryRunOutput` commits zero categories — the empty-named entry is
filtered out, not committed. -/
theorem C1_counterexample :
    ((splitNl ['▶']).filterMap lineHeaderNameU).length = 1 ∧
    parseDryRunOutput ['▶'] = [] := by
  exact ⟨by decide, by decide⟩

/-- C1 (amended): in `parseDryRunOutput` every header line opens exactly one
category, the category still open at end-of-stream is committed, and the
committed categories are exactly the header-derived names whose name is
non-empty, in order (a header whose derived name is empty is dropped by the
final filter); in the streaming `runDryRun` parser the committed categories
are exactly the header lines, with no filtering.  In both parsers a
category with no item lines is committed with empty items, and its total is
unset unless a "Nothing to clean" marker set it to `"0 B"`
(`parseDryRunOutput` only). -/
theorem C1_category_commits :
    (∀ output, (parseDryRunOutput output).map (·.name) =
      ((splitNl output).filterMap lineHeaderNameU).filter (fun n => !n.isEmpty)) ∧
    (∀ output, (parseDryRunOutput output).length =
      (((splitNl output).filterMap lineHeaderNameU).filter (fun n => !n.isEmpty)).length) ∧
    (∀ lines, (runCleanScan lines).categories.map (·.name) =
      lines.filterMap lineHeaderNameM) ∧
    (∀ lines, (runCleanScan lines).categories.length =
      (lines.filterMap lineHeaderNameM).length) ∧
    (∀ output c, c ∈ parseDryRunOutput output → c.items = [] →
      c.size = [] ∨ c.size = zeroBL) ∧
    (∀ lines c, c ∈ (runCleanScan lines).categories → c.items = [] →
      c.totalSize = []) := by
  refine ⟨fun output => (parseDryRun_eval output).1, ?_, fun lines => (runCleanScan_eval lines).1,
    ?_, fun output c hc => (parseDryRun_eval output).2 c hc,
    fun lines c hc => (runCleanScan_eval lines).2 c hc⟩
  · intro output
    rw [← (parseDryRun_eval output).1, List.length_map]
  · intro lines
    rw [← (runCleanScan_eval lines).1, List.length_map]

/-- Witness for C1 (amended) on the one-header outputs `"▶ A"` / `"➤ A"`. -/
theorem C1_category_commits_witness :
    (parseDryRunOutput ("▶ A".toList)).length =
      (((splitNl ("▶ A".toList)).filterMap lineHeaderNameU).filter
        (fun n => !n.isEmpty)).length ∧
    (runCleanScan [("➤ A".toList)]).categories.length =
      ([("➤ A".toList)].filterMap lineHeaderNameM).length ∧
    ((⟨['A'], [], true, []⟩ : CleanCategoryU).size = [] ∨
      (⟨['A'], [], true, []⟩ : CleanCategoryU).size = zeroBL) :=
  ⟨C1_category_commits.2.1 ("▶ A".toList),
   C1_category_commits.2.2.2.1 [("➤ A".toList)],
   C1_category_commits.2.2.2.2.1 ("▶ A".toList) ⟨['A'], [], true, []⟩
     (by decide) (by decide)⟩

end Mole
